import Mathlib

/-!
Sift-down primitives of libc++ (`__algorithm/sift_down.h`).

A shallow embedding of `__choose_child`, `__sift_down` and `__floyd_sift_down`.

* A random-access iterator `__first + k` is modelled by its offset `k : Nat`; the memory the
  iterators point into is a total map `Nat → α`, and every dereference is recorded in an access
  log, so that "stays inside `[0, len)`" is a statement about the log.
* `difference_type` values are natural numbers. The only subtraction in the source,
  `__len / 2 - 1` and `__len - 1`, is executed after the guard `__len < 2` has failed, so
  truncated subtraction and integer subtraction agree there.
* The comparator is a pure function `α → α → Bool`; every invocation is recorded with its
  two arguments.
* A move `_Ops::__iter_move(i)` reads the cell and, in `sift_down` and `floyd_sift_down`, leaves
  its value in place. `__sift_down` rewrites every cell it moved from before it returns.
  `__floyd_sift_down` never rewrites the returned hole: `floyd_sift_down_mv` leaves a moved-from
  cell in an arbitrary state `gone v`, and `floyd_sift_down_mv_agrees` shows that the two models
  differ in the content of the returned hole only.
* The two loops carry a fuel argument; the entry points supply `len` (resp. `len + 1`), and
  `sift_down_returns`, `floyd_sift_down_returns` prove that this is always enough.

The leading double underscore of the C++ names is dropped.
-/

namespace SiftDown

/-! ## Instrumented memory -/

/-- Memory together with the instrumentation: `cmps` lists the comparator invocations (oldest
first), `moves` counts the assignments of a child's value into the vacancy (line 71 and line 105
of the source), `acc` lists the offsets that were dereferenced (oldest first). -/
structure Mach (α : Type) where
  mem : Nat → α
  cmps : List (α × α)
  moves : Nat
  acc : List Nat

/-- Fresh state over a memory `s`: nothing compared, moved or dereferenced yet. -/
def Mach.init {α : Type} (s : Nat → α) : Mach α :=
  { mem := s, cmps := [], moves := 0, acc := [] }

/-- Memory `s` with the cell at offset `i` overwritten by `v`. -/
def setAt {α : Type} (s : Nat → α) (i : Nat) (v : α) : Nat → α :=
  fun j => if j = i then v else s j

/-- Record a dereference of the iterator at offset `i`. -/
def Mach.deref {α : Type} (m : Mach α) (i : Nat) : Mach α :=
  { m with acc := m.acc ++ [i] }

/-- Record one comparator invocation `__comp(a, b)`. -/
def Mach.call {α : Type} (m : Mach α) (a b : α) : Mach α :=
  { m with cmps := m.cmps ++ [(a, b)] }

/-- Assignment `*i = v` through the iterator at offset `i`. -/
def Mach.store {α : Type} (m : Mach α) (i : Nat) (v : α) : Mach α :=
  { m with mem := setAt m.mem i v, acc := m.acc ++ [i] }

/-- Count one element move. -/
def Mach.moved {α : Type} (m : Mach α) : Mach α :=
  { m with moves := m.moves + 1 }

/-- The first `len` cells of a memory, as a list. -/
def region {α : Type} (s : Nat → α) (len : Nat) : List α :=
  (List.range len).map s

/-- Memory whose first cells hold the list `l`; every cell past the list holds `d`
(such a cell lies outside the sequence, the value only fills the total map). -/
def ofList {α : Type} (l : List α) (d : α) : Nat → α :=
  fun i => l.getD i d

/-! ## The three routines -/

/-- Source lines 28-43, `__choose_child<_, __assume_both_children>(__left, __pos, __bound, __comp)`.
The two reference parameters are returned: the result is the state, the new `__left` and the new
`__pos`. Both branches of the `if constexpr` advance `__left` by `__result`. -/
def choose_child {α : Type} (assume_both_children : Bool) (comp : α → α → Bool) (m : Mach α)
    (left pos bound : Nat) : Mach α × Nat × Nat :=
  if assume_both_children || decide (pos < bound) then
    let right := left + 1
    let result := comp (m.mem left) (m.mem right)
    let m1 := ((m.deref left).deref right).call (m.mem left) (m.mem right)
    (m1, left + result.toNat, pos + result.toNat)
  else
    (m, left, pos)

/-- Source lines 69-84, the `do ... while` loop of `__sift_down`, entered with the body.
The result is the state after line 85 (the write-back of `__top`). -/
def sift_down_loop {α : Type} (assume_both_children : Bool) (comp : α → α → Bool) (len : Nat)
    (top : α) : Nat → Mach α → Nat → Nat → Nat → Option (Mach α)
  | 0, _, _, _, _ => none
  | fuel + 1, m, start_i, child_i, child =>
    -- *__start_i = _Ops::__iter_move(__child_i); __start_i = __child_i;
    let m1 := ((m.deref child_i).store start_i (m.mem child_i)).moved
    let start_i1 := child_i
    if len / 2 - 1 < child then
      -- break; *__start_i = std::move(__top);
      some (m1.store start_i1 top)
    else
      let child1 := 2 * child + 1
      let child_i1 := child1
      match choose_child assume_both_children comp m1 child_i1 child1 (len - 1) with
      | (m2, child_i2, child2) =>
        -- while (!__comp(*__child_i, __top))
        let m3 := (m2.deref child_i2).call (m2.mem child_i2) top
        if !comp (m2.mem child_i2) top then
          sift_down_loop assume_both_children comp len top fuel m3 start_i1 child_i2 child2
        else
          some (m3.store start_i1 top)

/-- Source lines 45-86, `__sift_down<_, __assume_both_children>(__first, __comp, __len, __start)`
on the memory `s` that `__first` points into. -/
def sift_down {α : Type} (assume_both_children : Bool) (comp : α → α → Bool) (s : Nat → α)
    (len start : Nat) : Option (Mach α) :=
  if len < 2 then
    some (Mach.init s)
  else
    let child := 2 * start + 1
    let child_i := child
    let start_i := start
    match choose_child assume_both_children comp (Mach.init s) child_i child (len - 1) with
    | (m1, child_i1, child1) =>
      let m2 := ((m1.deref child_i1).deref start_i).call (m1.mem child_i1) (m1.mem start_i)
      if comp (m1.mem child_i1) (m1.mem start_i) then
        some m2
      else
        -- __top(_Ops::__iter_move(__start_i))
        let top := m2.mem start_i
        let m3 := m2.deref start_i
        sift_down_loop assume_both_children comp len top len m3 start_i child_i1 child1

/-- Source lines 98-107, the `while` loop of `__floyd_sift_down`. The result is the state, the
offset of `__hole` and the value of `__child` at line 109. The move of line 105 is a copy here:
the cell moved from keeps its value. `floyd_sift_down_mv_loop` leaves it in a moved-from state
instead; the two agree on everything but the content of the returned hole
(`floyd_sift_down_mv_agrees`). -/
def floyd_sift_down_loop {α : Type} (comp : α → α → Bool) (len : Nat) :
    Nat → Mach α → Nat → Nat → Nat → Option (Mach α × Nat × Nat)
  | 0, _, _, _, _ => none
  | fuel + 1, m, hole, child_i, child =>
    if child ≤ len / 2 then
      let child_i1 := child_i + child
      let child1 := child * 2
      match choose_child true comp m child_i1 child1 len with
      | (m1, child_i2, child2) =>
        -- *__hole = _Ops::__iter_move(__child_i); __hole = __child_i;
        let m2 := ((m1.deref child_i2).store hole (m1.mem child_i2)).moved
        floyd_sift_down_loop comp len fuel m2 child_i2 child_i2 child2
    else
      some (m, hole, child)

/-- Source lines 88-110, `__floyd_sift_down(__first, __comp, __len)`: the final state, the offset
of the returned `__hole` and the returned `__child`. -/
def floyd_sift_down {α : Type} (comp : α → α → Bool) (s : Nat → α) (len : Nat) :
    Option (Mach α × Nat × Nat) :=
  floyd_sift_down_loop comp len (len + 1) (Mach.init s) 0 0 1

/-! ## Vocabulary of the statements -/

/-- Position `c` is the left or the right child of position `p`. -/
def IsChild (p c : Nat) : Prop := c = 2 * p + 1 ∨ c = 2 * p + 2

/-- Positions of the subtree rooted at `start`: `start` itself and all its descendants. -/
inductive InSubtree (start : Nat) : Nat → Prop
  | root : InSubtree start start
  | left {p : Nat} : InSubtree start p → InSubtree start (2 * p + 1)
  | right {p : Nat} : InSubtree start p → InSubtree start (2 * p + 2)

/-- Strict weak ordering, as a Boolean comparator: irreflexive, transitive, and with a transitive
incomparability relation. -/
structure StrictWeakOrder {α : Type} (comp : α → α → Bool) : Prop where
  irrefl : ∀ a, comp a a = false
  trans : ∀ a b c, comp a b = true → comp b c = true → comp a c = true
  incomp_trans : ∀ a b c, comp a b = false → comp b a = false → comp b c = false →
    comp c b = false → comp a c = false ∧ comp c a = false

/-- Loop invariant of `__sift_down` on the memory alone, at the head of an iteration: `h` is the
vacancy (it still holds a stale copy), `ci` the child selected below it and `top` the held value.
* the selected child is inside the region, is not less than `top` and not less than any child
  of `h`;
* every parent other than `h` in the subtree of `start` is in heap order with its children;
* the parent of `h` is in heap order with the children of `h` and is not less than `top`. -/
structure HoleInv {α : Type} (comp : α → α → Bool) (len start : Nat) (top : α) (mem : Nat → α)
    (h ci : Nat) : Prop where
  sub : InSubtree start h
  child : IsChild h ci
  lt : ci < len
  top_le : comp (mem ci) top = false
  max : ∀ q, IsChild h q → q < len → comp (mem ci) (mem q) = false
  others : ∀ p q, InSubtree start p → p ≠ h → IsChild p q → q < len →
    comp (mem p) (mem q) = false
  skip : ∀ p q, InSubtree start p → IsChild p h → IsChild h q → q < len →
    comp (mem p) (mem q) = false
  above : ∀ p, InSubtree start p → IsChild p h → comp (mem p) top = false

/-- The usual order on natural numbers, as a comparator. -/
def natLt (a b : Nat) : Bool := decide (a < b)

/-- Lines 71-72 of `__sift_down` (and line 105 of `__floyd_sift_down`): the value at offset `ci`
is read, assigned to offset `h`, and the move is counted. -/
def moveUp {α : Type} (m : Mach α) (h ci : Nat) : Mach α :=
  ((m.deref ci).store h (m.mem ci)).moved

/-- Lines 78-81 of `__sift_down`: the child selection below the position `c`. -/
def nextChild {α : Type} (abc : Bool) (comp : α → α → Bool) (len : Nat) (m : Mach α) (c : Nat) :
    Mach α × Nat × Nat :=
  choose_child abc comp m (2 * c + 1) (2 * c + 1) (len - 1)

/-- Line 84 of `__sift_down`: the state after evaluating `__comp(*__child_i, __top)`. -/
def checkTop {α : Type} (m : Mach α) (ci : Nat) (top : α) : Mach α :=
  (m.deref ci).call (m.mem ci) top

/-- Line 64 of `__sift_down`: the state after evaluating `__comp(*__child_i, *__start_i)`. -/
def headCheck {α : Type} (m : Mach α) (ci start : Nat) : Mach α :=
  ((m.deref ci).deref start).call (m.mem ci) (m.mem start)

/-- Line 74 of `__sift_down`, the test `__len / 2 - 1 < __child`, on the signed
`difference_type` with the truncating division of C++. -/
def leaf_break (len child : Int) : Bool :=
  decide (Int.tdiv len 2 - 1 < child)

/-- The expression `_Ops::__iter_move(i)` under move semantics: the cell at offset `i` is read and
left in the moved-from state `gone v` of the value `v` it held. -/
def Mach.take {α : Type} (gone : α → α) (m : Mach α) (i : Nat) : Mach α :=
  { m with mem := setAt m.mem i (gone (m.mem i)), acc := m.acc ++ [i] }

/-- Source lines 98-107 again, the `while` loop of `__floyd_sift_down`, with line 105 under move
semantics: `*__hole = _Ops::__iter_move(__child_i)` leaves the cell of `__child_i` in the
moved-from state given by `gone`. `floyd_sift_down_loop` is the instance in which a moved-from
cell keeps its value. -/
def floyd_sift_down_mv_loop {α : Type} (gone : α → α) (comp : α → α → Bool) (len : Nat) :
    Nat → Mach α → Nat → Nat → Nat → Option (Mach α × Nat × Nat)
  | 0, _, _, _, _ => none
  | fuel + 1, m, hole, child_i, child =>
    if child ≤ len / 2 then
      let child_i1 := child_i + child
      let child1 := child * 2
      match choose_child true comp m child_i1 child1 len with
      | (m1, child_i2, child2) =>
        -- *__hole = _Ops::__iter_move(__child_i); __hole = __child_i;
        let m2 := ((m1.take gone child_i2).store hole (m1.mem child_i2)).moved
        floyd_sift_down_mv_loop gone comp len fuel m2 child_i2 child_i2 child2
    else
      some (m, hole, child)

/-- Source lines 88-110, `__floyd_sift_down(__first, __comp, __len)` under move semantics. -/
def floyd_sift_down_mv {α : Type} (gone : α → α) (comp : α → α → Bool) (s : Nat → α)
    (len : Nat) : Option (Mach α × Nat × Nat) :=
  floyd_sift_down_mv_loop gone comp len (len + 1) (Mach.init s) 0 0 1

/-- The reversed order on natural numbers, as a comparator (`std::greater`). -/
def natGt (a b : Nat) : Bool := decide (b < a)

/-! ## Basic facts about the instrumentation -/

section Basic

variable {α : Type}

@[simp] theorem Mach.init_mem (s : Nat → α) : (Mach.init s).mem = s := rfl
@[simp] theorem Mach.init_cmps (s : Nat → α) : (Mach.init s).cmps = [] := rfl
@[simp] theorem Mach.init_moves (s : Nat → α) : (Mach.init s).moves = 0 := rfl
@[simp] theorem Mach.init_acc (s : Nat → α) : (Mach.init s).acc = [] := rfl

@[simp] theorem Mach.deref_mem (m : Mach α) (i : Nat) : (m.deref i).mem = m.mem := rfl
@[simp] theorem Mach.deref_cmps (m : Mach α) (i : Nat) : (m.deref i).cmps = m.cmps := rfl
@[simp] theorem Mach.deref_moves (m : Mach α) (i : Nat) : (m.deref i).moves = m.moves := rfl
@[simp] theorem Mach.deref_acc (m : Mach α) (i : Nat) : (m.deref i).acc = m.acc ++ [i] := rfl

@[simp] theorem Mach.call_mem (m : Mach α) (a b : α) : (m.call a b).mem = m.mem := rfl
@[simp] theorem Mach.call_cmps (m : Mach α) (a b : α) :
    (m.call a b).cmps = m.cmps ++ [(a, b)] := rfl
@[simp] theorem Mach.call_moves (m : Mach α) (a b : α) : (m.call a b).moves = m.moves := rfl
@[simp] theorem Mach.call_acc (m : Mach α) (a b : α) : (m.call a b).acc = m.acc := rfl

@[simp] theorem Mach.store_mem (m : Mach α) (i : Nat) (v : α) :
    (m.store i v).mem = setAt m.mem i v := rfl
@[simp] theorem Mach.store_cmps (m : Mach α) (i : Nat) (v : α) :
    (m.store i v).cmps = m.cmps := rfl
@[simp] theorem Mach.store_moves (m : Mach α) (i : Nat) (v : α) :
    (m.store i v).moves = m.moves := rfl
@[simp] theorem Mach.store_acc (m : Mach α) (i : Nat) (v : α) :
    (m.store i v).acc = m.acc ++ [i] := rfl

@[simp] theorem Mach.moved_mem (m : Mach α) : m.moved.mem = m.mem := rfl
@[simp] theorem Mach.moved_cmps (m : Mach α) : m.moved.cmps = m.cmps := rfl
@[simp] theorem Mach.moved_moves (m : Mach α) : m.moved.moves = m.moves + 1 := rfl
@[simp] theorem Mach.moved_acc (m : Mach α) : m.moved.acc = m.acc := rfl

theorem setAt_same (s : Nat → α) (i : Nat) (v : α) : setAt s i v i = v := by
  simp [setAt]

theorem setAt_other (s : Nat → α) (i j : Nat) (v : α) (h : j ≠ i) : setAt s i v j = s j := by
  simp [setAt, h]

theorem setAt_apply (s : Nat → α) (i j : Nat) (v : α) :
    setAt s i v j = if j = i then v else s j := rfl

/-- The guard of `__choose_child`, as a proposition. -/
theorem choose_child_guard (abc : Bool) (pos bound : Nat) :
    (abc || decide (pos < bound)) = true ↔ (abc = true ∨ pos < bound) := by
  simp

theorem choose_child_mem (abc : Bool) (comp : α → α → Bool) (m : Mach α) (left pos bound : Nat) :
    (choose_child abc comp m left pos bound).1.mem = m.mem := by
  unfold choose_child
  split <;> rfl

theorem choose_child_moves (abc : Bool) (comp : α → α → Bool) (m : Mach α)
    (left pos bound : Nat) : (choose_child abc comp m left pos bound).1.moves = m.moves := by
  unfold choose_child
  split <;> rfl

theorem choose_child_cmps (abc : Bool) (comp : α → α → Bool) (m : Mach α) (left pos bound : Nat) :
    (choose_child abc comp m left pos bound).1.cmps =
      m.cmps ++ (if abc = true ∨ pos < bound then [(m.mem left, m.mem (left + 1))] else []) := by
  unfold choose_child
  by_cases h : abc = true ∨ pos < bound
  · rw [if_pos ((choose_child_guard abc pos bound).2 h), if_pos h]; rfl
  · rw [if_neg (fun hg => h ((choose_child_guard abc pos bound).1 hg)), if_neg h]; simp

theorem choose_child_acc (abc : Bool) (comp : α → α → Bool) (m : Mach α) (left pos bound : Nat) :
    (choose_child abc comp m left pos bound).1.acc =
      m.acc ++ (if abc = true ∨ pos < bound then [left, left + 1] else []) := by
  unfold choose_child
  by_cases h : abc = true ∨ pos < bound
  · rw [if_pos ((choose_child_guard abc pos bound).2 h), if_pos h]; simp
  · rw [if_neg (fun hg => h ((choose_child_guard abc pos bound).1 hg)), if_neg h]; simp

theorem choose_child_left (abc : Bool) (comp : α → α → Bool) (m : Mach α) (left pos bound : Nat) :
    (choose_child abc comp m left pos bound).2.1 =
      if (abc = true ∨ pos < bound) ∧ comp (m.mem left) (m.mem (left + 1)) = true
      then left + 1 else left := by
  unfold choose_child
  by_cases h : abc = true ∨ pos < bound
  · rw [if_pos ((choose_child_guard abc pos bound).2 h)]
    cases hc : comp (m.mem left) (m.mem (left + 1)) <;> simp [h, hc]
  · rw [if_neg (fun hg => h ((choose_child_guard abc pos bound).1 hg))]; simp [h]

theorem choose_child_pos (abc : Bool) (comp : α → α → Bool) (m : Mach α) (left pos bound : Nat) :
    (choose_child abc comp m left pos bound).2.2 =
      if (abc = true ∨ pos < bound) ∧ comp (m.mem left) (m.mem (left + 1)) = true
      then pos + 1 else pos := by
  unfold choose_child
  by_cases h : abc = true ∨ pos < bound
  · rw [if_pos ((choose_child_guard abc pos bound).2 h)]
    cases hc : comp (m.mem left) (m.mem (left + 1)) <;> simp [h, hc]
  · rw [if_neg (fun hg => h ((choose_child_guard abc pos bound).1 hg))]; simp [h]

end Basic

/-! ## The loop of `__sift_down`: an invariant rule that also gives termination -/

section LoopRule

variable {α : Type}

/-- One iteration of the loop of `__sift_down`, written with `moveUp`, `nextChild`, `checkTop`. -/
theorem sift_down_loop_succ (abc : Bool) (comp : α → α → Bool) (len : Nat) (top : α)
    (fuel : Nat) (m : Mach α) (h ci c : Nat) :
    sift_down_loop abc comp len top (fuel + 1) m h ci c =
      if len / 2 - 1 < c then
        some ((moveUp m h ci).store ci top)
      else
        if comp ((nextChild abc comp len (moveUp m h ci) c).1.mem
            (nextChild abc comp len (moveUp m h ci) c).2.1) top = false then
          sift_down_loop abc comp len top fuel
            (checkTop (nextChild abc comp len (moveUp m h ci) c).1
              (nextChild abc comp len (moveUp m h ci) c).2.1 top)
            ci (nextChild abc comp len (moveUp m h ci) c).2.1
            (nextChild abc comp len (moveUp m h ci) c).2.2
        else
          some ((checkTop (nextChild abc comp len (moveUp m h ci) c).1
              (nextChild abc comp len (moveUp m h ci) c).2.1 top).store ci top) := by
  simp only [sift_down_loop, nextChild, moveUp, checkTop]
  split
  · rfl
  · cases hc : comp ((choose_child abc comp (((m.deref ci).store h (m.mem ci)).moved)
              (2 * c + 1) (2 * c + 1) (len - 1)).1.mem
            (choose_child abc comp (((m.deref ci).store h (m.mem ci)).moved)
              (2 * c + 1) (2 * c + 1) (len - 1)).2.1) top <;> simp [hc]

/-- The selection below `c` never returns a position at or above `c`. -/
theorem nextChild_pos_gt (abc : Bool) (comp : α → α → Bool) (len : Nat) (m : Mach α) (c : Nat) :
    c < (nextChild abc comp len m c).2.2 := by
  unfold nextChild
  rw [choose_child_pos]
  split <;> omega

/-- Invariant rule for the loop of `__sift_down`. If `Inv` holds on entry, is preserved by every
iteration that continues, and gives `Post` on both exits (the leaf test of line 74 and the
comparison of line 84), then the loop returns a state satisfying `Post`, as soon as the fuel covers
the distance from `c` to `len / 2`. -/
theorem sift_down_loop_rule (abc : Bool) (comp : α → α → Bool) (len : Nat) (top : α)
    (hlen : 2 ≤ len) (Inv : Mach α → Nat → Nat → Nat → Prop) (Post : Mach α → Prop)
    (hleaf : ∀ m h ci c, Inv m h ci c → len / 2 - 1 < c → Post ((moveUp m h ci).store ci top))
    (hstop : ∀ m h ci c, Inv m h ci c → ¬ len / 2 - 1 < c →
      comp ((nextChild abc comp len (moveUp m h ci) c).1.mem
        (nextChild abc comp len (moveUp m h ci) c).2.1) top = true →
      Post ((checkTop (nextChild abc comp len (moveUp m h ci) c).1
        (nextChild abc comp len (moveUp m h ci) c).2.1 top).store ci top))
    (hcont : ∀ m h ci c, Inv m h ci c → ¬ len / 2 - 1 < c →
      comp ((nextChild abc comp len (moveUp m h ci) c).1.mem
        (nextChild abc comp len (moveUp m h ci) c).2.1) top = false →
      Inv (checkTop (nextChild abc comp len (moveUp m h ci) c).1
          (nextChild abc comp len (moveUp m h ci) c).2.1 top)
        ci (nextChild abc comp len (moveUp m h ci) c).2.1
        (nextChild abc comp len (moveUp m h ci) c).2.2) :
    ∀ (fuel : Nat) (m : Mach α) (h ci c : Nat), Inv m h ci c → 1 ≤ fuel →
      len / 2 + 1 ≤ fuel + c →
      ∃ r, sift_down_loop abc comp len top fuel m h ci c = some r ∧ Post r := by
  intro fuel
  induction fuel with
  | zero => intro m h ci c _ h1; omega
  | succ fuel ih =>
    intro m h ci c hinv _ hfuel
    rw [sift_down_loop_succ]
    by_cases hl : len / 2 - 1 < c
    · rw [if_pos hl]
      exact ⟨_, rfl, hleaf m h ci c hinv hl⟩
    · rw [if_neg hl]
      cases hc : comp ((nextChild abc comp len (moveUp m h ci) c).1.mem
          (nextChild abc comp len (moveUp m h ci) c).2.1) top
      · rw [if_pos rfl]
        have hgt := nextChild_pos_gt abc comp len (moveUp m h ci) c
        exact ih _ _ _ _ (hcont m h ci c hinv hl hc) (by omega) (by omega)
      · rw [if_neg (by simp)]
        exact ⟨_, rfl, hstop m h ci c hinv hl hc⟩

end LoopRule

/-! ## The entry of `__sift_down` -/

section Entry

variable {α : Type}

/-- The body of `__sift_down` for `len ≥ 2`, written with `nextChild` and `headCheck`. -/
theorem sift_down_eq (abc : Bool) (comp : α → α → Bool) (s : Nat → α) (len start : Nat)
    (hlen : 2 ≤ len) :
    sift_down abc comp s len start =
      if comp (s (nextChild abc comp len (Mach.init s) start).2.1) (s start) = true then
        some (headCheck (nextChild abc comp len (Mach.init s) start).1
          (nextChild abc comp len (Mach.init s) start).2.1 start)
      else
        sift_down_loop abc comp len (s start) len
          ((headCheck (nextChild abc comp len (Mach.init s) start).1
            (nextChild abc comp len (Mach.init s) start).2.1 start).deref start)
          start (nextChild abc comp len (Mach.init s) start).2.1
          (nextChild abc comp len (Mach.init s) start).2.2 := by
  have hm : (choose_child abc comp (Mach.init s) (2 * start + 1) (2 * start + 1) (len - 1)).1.mem
      = s := by rw [choose_child_mem]; rfl
  simp only [sift_down, nextChild, headCheck]
  rw [if_neg (by omega)]
  simp only [hm, Mach.call_mem, Mach.deref_mem]

/-- Invariant rule for a whole call of `__sift_down` with `len ≥ 2`: the call returns, and the
returned state satisfies `Post`. -/
theorem sift_down_rule (abc : Bool) (comp : α → α → Bool) (s : Nat → α) (len start : Nat)
    (hlen : 2 ≤ len) (Inv : Mach α → Nat → Nat → Nat → Prop) (Post : Mach α → Prop)
    (hexit : comp (s (nextChild abc comp len (Mach.init s) start).2.1) (s start) = true →
      Post (headCheck (nextChild abc comp len (Mach.init s) start).1
        (nextChild abc comp len (Mach.init s) start).2.1 start))
    (hinit : comp (s (nextChild abc comp len (Mach.init s) start).2.1) (s start) = false →
      Inv ((headCheck (nextChild abc comp len (Mach.init s) start).1
          (nextChild abc comp len (Mach.init s) start).2.1 start).deref start)
        start (nextChild abc comp len (Mach.init s) start).2.1
        (nextChild abc comp len (Mach.init s) start).2.2)
    (hleaf : ∀ m h ci c, Inv m h ci c → len / 2 - 1 < c →
      Post ((moveUp m h ci).store ci (s start)))
    (hstop : ∀ m h ci c, Inv m h ci c → ¬ len / 2 - 1 < c →
      comp ((nextChild abc comp len (moveUp m h ci) c).1.mem
        (nextChild abc comp len (moveUp m h ci) c).2.1) (s start) = true →
      Post ((checkTop (nextChild abc comp len (moveUp m h ci) c).1
        (nextChild abc comp len (moveUp m h ci) c).2.1 (s start)).store ci (s start)))
    (hcont : ∀ m h ci c, Inv m h ci c → ¬ len / 2 - 1 < c →
      comp ((nextChild abc comp len (moveUp m h ci) c).1.mem
        (nextChild abc comp len (moveUp m h ci) c).2.1) (s start) = false →
      Inv (checkTop (nextChild abc comp len (moveUp m h ci) c).1
          (nextChild abc comp len (moveUp m h ci) c).2.1 (s start))
        ci (nextChild abc comp len (moveUp m h ci) c).2.1
        (nextChild abc comp len (moveUp m h ci) c).2.2) :
    ∃ r, sift_down abc comp s len start = some r ∧ Post r := by
  rw [sift_down_eq abc comp s len start hlen]
  cases hc : comp (s (nextChild abc comp len (Mach.init s) start).2.1) (s start)
  · rw [if_neg (by simp)]
    exact sift_down_loop_rule abc comp len (s start) hlen Inv Post hleaf hstop hcont len _ _ _ _
      (hinit hc) (by omega) (by omega)
  · rw [if_pos rfl]
    exact ⟨_, rfl, hexit hc⟩

/-- Every call of `__sift_down` returns: the fuel handed to the loop is never exhausted. -/
theorem sift_down_returns (abc : Bool) (comp : α → α → Bool) (s : Nat → α) (len start : Nat) :
    ∃ r, sift_down abc comp s len start = some r := by
  by_cases hlen : 2 ≤ len
  · obtain ⟨r, hr, _⟩ := sift_down_rule abc comp s len start hlen (fun _ _ _ _ => True)
      (fun _ => True) (fun _ => trivial) (fun _ => trivial) (fun _ _ _ _ _ _ => trivial)
      (fun _ _ _ _ _ _ _ => trivial) (fun _ _ _ _ _ _ _ => trivial)
    exact ⟨r, hr⟩
  · exact ⟨Mach.init s, by simp [sift_down, Nat.lt_of_not_le hlen]⟩

end Entry

/-! ## Child selection (claims C6, C7) and the two immediate returns (claims C5, C10) -/

section Immediate

variable {α : Type}

theorem natLt_strictWeakOrder : StrictWeakOrder natLt := by
  refine ⟨?_, ?_, ?_⟩
  · intro a; simp [natLt]
  · intro a b c; simp only [natLt, decide_eq_true_eq]; omega
  · intro a b c; simp only [natLt, decide_eq_false_iff_not]; omega

/-- C5: for `len < 2` a call of `__sift_down` returns at once: the memory is the one it was given,
no comparator call was made, no element was moved and no position was dereferenced. -/
theorem sift_down_short_region (abc : Bool) (comp : α → α → Bool) (s : Nat → α)
    (len start : Nat) (hlen : len < 2) :
    ∃ r, sift_down abc comp s len start = some r ∧
      r.mem = s ∧ r.cmps = [] ∧ r.moves = 0 ∧ r.acc = [] :=
  ⟨Mach.init s, by simp [sift_down, hlen], rfl, rfl, rfl, rfl⟩

theorem sift_down_short_region_witness :
    (1 : Nat) < 2 ∧ ∃ r, sift_down false natLt (ofList [4] 0) 1 0 = some r ∧
      r.mem = ofList [4] 0 ∧ r.cmps = [] ∧ r.moves = 0 ∧ r.acc = [] :=
  ⟨by decide, sift_down_short_region false natLt (ofList [4] 0) 1 0 (by decide)⟩

/-- C6: when `__assume_both_children` holds or `pos < bound`, `__choose_child` moves the iterator
and the position to the right child exactly when `comp(*left, *right)` is true and leaves them on
the left child otherwise, and for an asymmetric comparator the chosen child is not less than the
other one; when `__assume_both_children` is false and `bound ≤ pos`, iterator and position are
left alone. In every case both are advanced by the same amount and the memory is not modified. -/
theorem choose_child_selection (abc : Bool) (comp : α → α → Bool) (m : Mach α)
    (left pos bound : Nat) :
    ((abc = true ∨ pos < bound) →
      (choose_child abc comp m left pos bound).2.1 =
        (if comp (m.mem left) (m.mem (left + 1)) = true then left + 1 else left) ∧
      (choose_child abc comp m left pos bound).2.2 =
        (if comp (m.mem left) (m.mem (left + 1)) = true then pos + 1 else pos) ∧
      ((∀ a b, comp a b = true → comp b a = false) →
        comp (m.mem (choose_child abc comp m left pos bound).2.1)
          (m.mem (2 * left + 1 - (choose_child abc comp m left pos bound).2.1)) = false)) ∧
    (abc = false → bound ≤ pos →
      (choose_child abc comp m left pos bound).2.1 = left ∧
      (choose_child abc comp m left pos bound).2.2 = pos) ∧
    (choose_child abc comp m left pos bound).2.1 + pos
      = (choose_child abc comp m left pos bound).2.2 + left ∧
    (choose_child abc comp m left pos bound).1.mem = m.mem := by
  rw [choose_child_left, choose_child_pos, choose_child_mem]
  refine ⟨?_, ?_, ?_, rfl⟩
  · intro hg
    cases hc : comp (m.mem left) (m.mem (left + 1))
    · refine ⟨by simp, by simp, ?_⟩
      intro _
      have h1 : 2 * left + 1 - left = left + 1 := by omega
      simp [h1, hc]
    · refine ⟨by simp [hg], by simp [hg], ?_⟩
      intro hasym
      have h1 : 2 * left + 1 - (left + 1) = left := by omega
      simp only [hg, true_and, if_true, h1]
      exact hasym _ _ hc
  · intro ha hb
    have hg : ¬ (abc = true ∨ pos < bound) := by
      rintro (h | h)
      · rw [ha] at h; exact Bool.noConfusion h
      · omega
    simp [hg]
  · split <;> omega

theorem choose_child_selection_witness :
    ((false = true ∨ 1 < 2) →
      (choose_child false natLt (Mach.init (ofList [3, 1, 2] 0)) 1 1 2).2.1 =
        (if natLt ((Mach.init (ofList [3, 1, 2] 0)).mem 1)
          ((Mach.init (ofList [3, 1, 2] 0)).mem (1 + 1)) = true then 1 + 1 else 1) ∧
      (choose_child false natLt (Mach.init (ofList [3, 1, 2] 0)) 1 1 2).2.2 =
        (if natLt ((Mach.init (ofList [3, 1, 2] 0)).mem 1)
          ((Mach.init (ofList [3, 1, 2] 0)).mem (1 + 1)) = true then 1 + 1 else 1) ∧
      ((∀ a b, natLt a b = true → natLt b a = false) →
        natLt ((Mach.init (ofList [3, 1, 2] 0)).mem
            (choose_child false natLt (Mach.init (ofList [3, 1, 2] 0)) 1 1 2).2.1)
          ((Mach.init (ofList [3, 1, 2] 0)).mem (2 * 1 + 1 -
            (choose_child false natLt (Mach.init (ofList [3, 1, 2] 0)) 1 1 2).2.1)) = false)) ∧
    (false = false → 2 ≤ 1 →
      (choose_child false natLt (Mach.init (ofList [3, 1, 2] 0)) 1 1 2).2.1 = 1 ∧
      (choose_child false natLt (Mach.init (ofList [3, 1, 2] 0)) 1 1 2).2.2 = 1) ∧
    (choose_child false natLt (Mach.init (ofList [3, 1, 2] 0)) 1 1 2).2.1 + 1
      = (choose_child false natLt (Mach.init (ofList [3, 1, 2] 0)) 1 1 2).2.2 + 1 ∧
    (choose_child false natLt (Mach.init (ofList [3, 1, 2] 0)) 1 1 2).1.mem
      = (Mach.init (ofList [3, 1, 2] 0)).mem :=
  choose_child_selection false natLt (Mach.init (ofList [3, 1, 2] 0)) 1 1 2

/-- C7: one call of `__choose_child` invokes the comparator at most once: exactly once, on
`(*left, *(left+1))`, when `__assume_both_children` holds or `pos < bound`, and not at all (and
without any dereference) when `__assume_both_children` is false and `bound ≤ pos`. As called by
`__sift_down` (flag false, iterator and position both at a left child `pos < len`, bound
`len - 1`) it dereferences only positions below `len`. -/
theorem choose_child_comparator_calls (abc : Bool) (comp : α → α → Bool) (m : Mach α)
    (left pos bound : Nat) :
    (choose_child abc comp m left pos bound).1.cmps.length ≤ m.cmps.length + 1 ∧
    ((abc = true ∨ pos < bound) →
      (choose_child abc comp m left pos bound).1.cmps
        = m.cmps ++ [(m.mem left, m.mem (left + 1))]) ∧
    (abc = false → bound ≤ pos →
      (choose_child abc comp m left pos bound).1.cmps = m.cmps ∧
      (choose_child abc comp m left pos bound).1.acc = m.acc) ∧
    (∀ len, pos < len →
      ∀ i ∈ (choose_child false comp m pos pos (len - 1)).1.acc, i ∈ m.acc ∨ i < len) := by
  rw [choose_child_cmps, choose_child_acc]
  refine ⟨?_, ?_, ?_, ?_⟩
  · split <;> simp
  · intro hg; rw [if_pos hg]
  · intro ha hb
    have hg : ¬ (abc = true ∨ pos < bound) := by
      rintro (h | h)
      · rw [ha] at h; exact Bool.noConfusion h
      · omega
    simp [hg]
  · intro len hpos i hi
    rw [choose_child_acc] at hi
    by_cases hg : pos < len - 1
    · simp only [hg, or_true, if_true, List.mem_append, List.mem_cons, List.mem_singleton,
        List.not_mem_nil, or_false] at hi
      rcases hi with hi | hi | hi
      · exact Or.inl hi
      · exact Or.inr (by omega)
      · exact Or.inr (by omega)
    · simp [hg] at hi
      exact Or.inl hi

theorem choose_child_comparator_calls_witness :
    (choose_child false natLt (Mach.init (ofList [5, 9] 0)) 1 1 1).1.cmps.length
      ≤ (Mach.init (ofList [5, 9] 0)).cmps.length + 1 ∧
    ((false = true ∨ 1 < 1) →
      (choose_child false natLt (Mach.init (ofList [5, 9] 0)) 1 1 1).1.cmps
        = (Mach.init (ofList [5, 9] 0)).cmps ++
          [((Mach.init (ofList [5, 9] 0)).mem 1, (Mach.init (ofList [5, 9] 0)).mem (1 + 1))]) ∧
    (false = false → 1 ≤ 1 →
      (choose_child false natLt (Mach.init (ofList [5, 9] 0)) 1 1 1).1.cmps
        = (Mach.init (ofList [5, 9] 0)).cmps ∧
      (choose_child false natLt (Mach.init (ofList [5, 9] 0)) 1 1 1).1.acc
        = (Mach.init (ofList [5, 9] 0)).acc) ∧
    (∀ len, 1 < len →
      ∀ i ∈ (choose_child false natLt (Mach.init (ofList [5, 9] 0)) 1 1 (len - 1)).1.acc,
        i ∈ (Mach.init (ofList [5, 9] 0)).acc ∨ i < len) :=
  choose_child_comparator_calls false natLt (Mach.init (ofList [5, 9] 0)) 1 1 1

/-- The return of line 66: nothing was written, at most two comparisons were made. -/
theorem sift_down_of_child_lt (abc : Bool) (comp : α → α → Bool) (s : Nat → α) (len start : Nat)
    (hlen : 2 ≤ len)
    (hc : comp (s (choose_child abc comp (Mach.init s) (2 * start + 1) (2 * start + 1)
      (len - 1)).2.1) (s start) = true) :
    ∃ r, sift_down abc comp s len start = some r ∧
      r.mem = s ∧ r.moves = 0 ∧ r.cmps.length ≤ 2 := by
  rw [sift_down_eq abc comp s len start hlen]
  refine ⟨_, if_pos hc, ?_, ?_, ?_⟩
  · simp [headCheck, nextChild, choose_child_mem]
  · simp [headCheck, nextChild, choose_child_moves]
  · simp only [headCheck, nextChild, Mach.call_cmps, Mach.deref_cmps, choose_child_cmps,
      Mach.init_cmps, List.nil_append, List.length_append, List.length_singleton]
    split <;> simp

/-- C10: for `len ≥ 2` and a start with a child, if the child selected by `__choose_child`
compares less than the value at `start`, the call returns with the memory unchanged, no element
move and at most two comparator calls. -/
theorem sift_down_early_exit (abc : Bool) (comp : α → α → Bool) (s : Nat → α) (len start : Nat)
    (hlen : 2 ≤ len) (_hstart : 2 * start + 1 < len)
    (hc : comp (s (choose_child abc comp (Mach.init s) (2 * start + 1) (2 * start + 1)
      (len - 1)).2.1) (s start) = true) :
    ∃ r, sift_down abc comp s len start = some r ∧
      r.mem = s ∧ r.moves = 0 ∧ r.cmps.length ≤ 2 :=
  sift_down_of_child_lt abc comp s len start hlen hc

theorem sift_down_early_exit_witness :
    2 ≤ 3 ∧ 2 * 0 + 1 < 3 ∧
    natLt (ofList [3, 1, 2] 0 (choose_child false natLt (Mach.init (ofList [3, 1, 2] 0))
      (2 * 0 + 1) (2 * 0 + 1) (3 - 1)).2.1) (ofList [3, 1, 2] 0 0) = true ∧
    ∃ r, sift_down false natLt (ofList [3, 1, 2] 0) 3 0 = some r ∧
      r.mem = ofList [3, 1, 2] 0 ∧ r.moves = 0 ∧ r.cmps.length ≤ 2 :=
  ⟨by decide, by decide, by decide,
    sift_down_early_exit false natLt (ofList [3, 1, 2] 0) 3 0 (by decide) (by decide)
      (by decide)⟩

end Immediate

/-! ## Facts about the selection below a position -/

section NextChild

variable {α : Type}

theorem nextChild_mem (abc : Bool) (comp : α → α → Bool) (len : Nat) (m : Mach α) (c : Nat) :
    (nextChild abc comp len m c).1.mem = m.mem :=
  choose_child_mem abc comp m _ _ _

theorem nextChild_moves (abc : Bool) (comp : α → α → Bool) (len : Nat) (m : Mach α) (c : Nat) :
    (nextChild abc comp len m c).1.moves = m.moves :=
  choose_child_moves abc comp m _ _ _

theorem nextChild_cmps_le (abc : Bool) (comp : α → α → Bool) (len : Nat) (m : Mach α) (c : Nat) :
    (nextChild abc comp len m c).1.cmps.length ≤ m.cmps.length + 1 := by
  unfold nextChild
  rw [choose_child_cmps]
  split <;> simp

/-- In `__sift_down` the iterator offset and the integer position always agree. -/
theorem nextChild_pos_eq (abc : Bool) (comp : α → α → Bool) (len : Nat) (m : Mach α) (c : Nat) :
    (nextChild abc comp len m c).2.2 = (nextChild abc comp len m c).2.1 := by
  unfold nextChild
  rw [choose_child_left, choose_child_pos]

theorem nextChild_isChild (abc : Bool) (comp : α → α → Bool) (len : Nat) (m : Mach α) (c : Nat) :
    IsChild c (nextChild abc comp len m c).2.1 := by
  unfold nextChild IsChild
  rw [choose_child_left]
  split
  · exact Or.inr rfl
  · exact Or.inl rfl

/-- The selected child lies inside the region, provided the left child does and the flag
`__assume_both_children` is only set for an odd `len`. -/
theorem nextChild_lt (abc : Bool) (comp : α → α → Bool) (len : Nat) (m : Mach α) (c : Nat)
    (habc : abc = true → len % 2 = 1) (hc : 2 * c + 1 < len) :
    (nextChild abc comp len m c).2.1 < len := by
  unfold nextChild
  rw [choose_child_left]
  split
  · rename_i h
    rcases h.1 with h1 | h1
    · have := habc h1; omega
    · omega
  · exact hc

theorem nextChild_acc (abc : Bool) (comp : α → α → Bool) (len : Nat) (m : Mach α) (c : Nat)
    (habc : abc = true → len % 2 = 1) (hc : 2 * c + 1 < len) :
    ∀ i ∈ (nextChild abc comp len m c).1.acc, i ∈ m.acc ∨ i < len := by
  intro i hi
  unfold nextChild at hi
  rw [choose_child_acc] at hi
  by_cases hg : abc = true ∨ 2 * c + 1 < len - 1
  · have h2 : 2 * c + 1 + 1 < len := by
      rcases hg with h1 | h1
      · have := habc h1; omega
      · omega
    simp only [hg, if_true, List.mem_append, List.mem_cons, List.mem_singleton,
      List.not_mem_nil, or_false] at hi
    rcases hi with hi | hi | hi
    · exact Or.inl hi
    · exact Or.inr (by omega)
    · exact Or.inr (by omega)
  · simp only [hg, if_false, List.append_nil] at hi
    exact Or.inl hi

/-- The selected child is not less than any child inside the region. -/
theorem nextChild_max (abc : Bool) (comp : α → α → Bool) (len : Nat) (m : Mach α) (c : Nat)
    (hirr : ∀ a, comp a a = false) (hasym : ∀ a b, comp a b = true → comp b a = false) :
    ∀ q, IsChild c q → q < len →
      comp (m.mem (nextChild abc comp len m c).2.1) (m.mem q) = false := by
  intro q hq hql
  unfold nextChild
  rw [choose_child_left]
  by_cases hg : abc = true ∨ 2 * c + 1 < len - 1
  · cases hcmp : comp (m.mem (2 * c + 1)) (m.mem (2 * c + 1 + 1))
    · rw [if_neg (by simp)]
      rcases hq with rfl | rfl
      · exact hirr _
      · exact hcmp
    · rw [if_pos ⟨hg, rfl⟩]
      rcases hq with rfl | rfl
      · exact hasym _ _ hcmp
      · exact hirr _
  · rw [if_neg (fun h => hg h.1)]
    rcases hq with rfl | rfl
    · exact hirr _
    · exfalso; apply hg; right; omega

/-- The leaf test of line 74, for `len ≥ 2`. -/
theorem leaf_test (len c : Nat) (hlen : 2 ≤ len) : len / 2 - 1 < c ↔ len ≤ 2 * c + 1 := by
  omega

end NextChild

/-! ## Bounds safety of `__sift_down` (claim C9) -/

section Bounds

variable {α : Type}

/-- Every position dereferenced by `__sift_down` lies in `[0, len)`, when `start` has a left child
inside the region and `__assume_both_children` is only set for an odd `len`. -/
theorem sift_down_acc_lt (abc : Bool) (comp : α → α → Bool) (s : Nat → α) (len start : Nat)
    (habc : abc = true → len % 2 = 1) (hlen : 2 ≤ len) (hstart : 2 * start + 1 < len) :
    ∃ r, sift_down abc comp s len start = some r ∧ ∀ i ∈ r.acc, i < len := by
  apply sift_down_rule abc comp s len start hlen
    (fun m h ci c => ci = c ∧ h < len ∧ ci < len ∧ ∀ i ∈ m.acc, i < len)
    (fun r => ∀ i ∈ r.acc, i < len)
  · intro _ i hi
    have hlt := nextChild_lt abc comp len (Mach.init s) start habc hstart
    simp only [headCheck, Mach.call_acc, Mach.deref_acc, List.mem_append,
      List.mem_singleton] at hi
    rcases hi with (hi | hi) | hi
    · rcases nextChild_acc abc comp len (Mach.init s) start habc hstart i hi with h | h
      · simp at h
      · exact h
    · omega
    · omega
  · intro _
    have hlt := nextChild_lt abc comp len (Mach.init s) start habc hstart
    refine ⟨(nextChild_pos_eq _ _ _ _ _).symm, by omega, hlt, ?_⟩
    intro i hi
    simp only [headCheck, Mach.call_acc, Mach.deref_acc, List.mem_append,
      List.mem_singleton] at hi
    rcases hi with ((hi | hi) | hi) | hi
    · rcases nextChild_acc abc comp len (Mach.init s) start habc hstart i hi with h | h
      · simp at h
      · exact h
    · omega
    · omega
    · omega
  · rintro m h ci c ⟨_, hh, hci, hacc⟩ _ i hi
    simp only [moveUp, Mach.store_acc, Mach.moved_acc, Mach.deref_acc, List.mem_append,
      List.mem_singleton] at hi
    rcases hi with ((hi | hi) | hi) | hi
    · exact hacc i hi
    · omega
    · omega
    · omega
  · rintro m h ci c ⟨hcc, hh, hci, hacc⟩ hl _ i hi
    have hc2 : 2 * c + 1 < len := by have := leaf_test len c hlen; omega
    have hlt := nextChild_lt abc comp len (moveUp m h ci) c habc hc2
    simp only [checkTop, Mach.store_acc, Mach.call_acc, Mach.deref_acc, List.mem_append,
      List.mem_singleton] at hi
    rcases hi with (hi | hi) | hi
    · rcases nextChild_acc abc comp len (moveUp m h ci) c habc hc2 i hi with h1 | h1
      · simp only [moveUp, Mach.store_acc, Mach.moved_acc, Mach.deref_acc, List.mem_append,
          List.mem_singleton] at h1
        rcases h1 with (h1 | h1) | h1
        · exact hacc i h1
        · omega
        · omega
      · exact h1
    · omega
    · omega
  · rintro m h ci c ⟨hcc, hh, hci, hacc⟩ hl _
    have hc2 : 2 * c + 1 < len := by have := leaf_test len c hlen; omega
    have hlt := nextChild_lt abc comp len (moveUp m h ci) c habc hc2
    refine ⟨(nextChild_pos_eq _ _ _ _ _).symm, hci, hlt, ?_⟩
    intro i hi
    simp only [checkTop, Mach.call_acc, Mach.deref_acc, List.mem_append,
      List.mem_singleton] at hi
    rcases hi with hi | hi
    · rcases nextChild_acc abc comp len (moveUp m h ci) c habc hc2 i hi with h1 | h1
      · simp only [moveUp, Mach.store_acc, Mach.moved_acc, Mach.deref_acc, List.mem_append,
          List.mem_singleton] at h1
        rcases h1 with (h1 | h1) | h1
        · exact hacc i h1
        · omega
        · omega
      · exact h1
    · omega

/-- C9, counterexample: on the two-element sequence `[1, 2]` with `len = 2` and the childless
start position `1`, `__sift_down` computes `__child = 3` and dereferences offset `3` at line 64
(as `*__child_i`), which lies outside `[0, 2)`. -/
theorem sift_down_childless_start_leaves_region :
    (sift_down false natLt (ofList [1, 2] 0) 2 1).map (fun r => r.acc)
        = some [3, 1] ∧
      ¬ ∃ r, sift_down false natLt (ofList [1, 2] 0) 2 1 = some r ∧ ∀ i ∈ r.acc, i < 2 := by
  have h1 : (sift_down false natLt (ofList [1, 2] 0) 2 1).map (fun r => r.acc)
      = some [3, 1] := by decide
  refine ⟨h1, ?_⟩
  rintro ⟨r, hr, hall⟩
  rw [hr] at h1
  simp only [Option.map_some', Option.some.injEq] at h1
  have h3 := hall 3 (by rw [h1]; simp)
  omega

/-- C9, amended: for `len ≥ 2` and every start position that has a left child inside the region
(`2 * start + 1 < len`), a call with `__assume_both_children = false` returns and has dereferenced
only positions in `[0, len)`. -/
theorem sift_down_stays_in_region (comp : α → α → Bool) (s : Nat → α) (len start : Nat)
    (hlen : 2 ≤ len) (hstart : 2 * start + 1 < len) :
    ∃ r, sift_down false comp s len start = some r ∧ ∀ i ∈ r.acc, i < len :=
  sift_down_acc_lt false comp s len start (fun h => Bool.noConfusion h) hlen hstart

theorem sift_down_stays_in_region_witness :
    2 ≤ 3 ∧ 2 * 0 + 1 < 3 ∧
    ∃ r, sift_down false natLt (ofList [1, 3, 2] 0) 3 0 = some r ∧ ∀ i ∈ r.acc, i < 3 :=
  ⟨by decide, by decide,
    sift_down_stays_in_region natLt (ofList [1, 3, 2] 0) 3 0 (by decide) (by decide)⟩

end Bounds

/-! ## Comparison and move bound of `__sift_down` (claim C3) -/

section Cost

variable {α : Type}

theorem moveUp_moves (m : Mach α) (h ci : Nat) : (moveUp m h ci).moves = m.moves + 1 := rfl

theorem moveUp_cmps (m : Mach α) (h ci : Nat) : (moveUp m h ci).cmps = m.cmps := rfl

theorem moveUp_mem (m : Mach α) (h ci : Nat) :
    (moveUp m h ci).mem = setAt m.mem h (m.mem ci) := rfl

/-- Counting invariant of the loop: after `k` moves the selected child `c` satisfies
`2 ^ (k + 1) ≤ c + 1`, and at most `2 * (k + 1)` comparisons were made. -/
theorem sift_down_cost_aux (abc : Bool) (comp : α → α → Bool) (s : Nat → α) (n start : Nat)
    (habc : abc = true → n % 2 = 1) (hn : 2 ≤ n) (hstart : 2 * start + 1 < n) :
    ∃ r, sift_down abc comp s n start = some r ∧
      r.cmps.length ≤ 2 * Nat.log 2 n ∧ r.moves ≤ Nat.log 2 n := by
  have hlog1 : 1 ≤ Nat.log 2 n := Nat.log_pos (by decide) hn
  have hlog : ∀ k c, c < n → 2 ^ k ≤ c + 1 → k ≤ Nat.log 2 n := by
    intro k c hc hk
    exact Nat.le_log_of_pow_le (by decide) (le_trans hk hc)
  apply sift_down_rule abc comp s n start hn
    (fun m _ ci c => ci = c ∧ c < n ∧ 2 ^ (m.moves + 1) ≤ c + 1 ∧
      m.cmps.length ≤ 2 * (m.moves + 1))
    (fun r => r.cmps.length ≤ 2 * Nat.log 2 n ∧ r.moves ≤ Nat.log 2 n)
  · intro _
    have h1 := nextChild_cmps_le abc comp n (Mach.init s) start
    have h2 := nextChild_moves abc comp n (Mach.init s) start
    simp only [headCheck, Mach.call_cmps, Mach.deref_cmps, Mach.call_moves, Mach.deref_moves,
      List.length_append, List.length_singleton, Mach.init_cmps, Mach.init_moves,
      List.length_nil] at h1 h2 ⊢
    omega
  · intro _
    have h1 := nextChild_cmps_le abc comp n (Mach.init s) start
    have h2 := nextChild_moves abc comp n (Mach.init s) start
    have h3 := nextChild_lt abc comp n (Mach.init s) start habc hstart
    have h4 := nextChild_isChild abc comp n (Mach.init s) start
    have h5 := nextChild_pos_eq abc comp n (Mach.init s) start
    simp only [headCheck, Mach.call_cmps, Mach.deref_cmps, Mach.call_moves, Mach.deref_moves,
      List.length_append, List.length_singleton, Mach.init_cmps, Mach.init_moves,
      List.length_nil, IsChild] at h1 h2 h4 ⊢
    rw [h2]
    refine ⟨h5.symm, by omega, ?_, by omega⟩
    simp only [zero_add, pow_one]
    omega
  · rintro m h ci c ⟨_, hc, hpow, hcmp⟩ _
    have hk := hlog _ c hc hpow
    simp only [Mach.store_cmps, Mach.store_moves, moveUp_moves, moveUp_cmps]
    omega
  · rintro m h ci c ⟨_, hc, hpow, hcmp⟩ hl _
    have hc2 : 2 * c + 1 < n := by have := leaf_test n c hn; omega
    have h1 := nextChild_cmps_le abc comp n (moveUp m h ci) c
    have h2 := nextChild_moves abc comp n (moveUp m h ci) c
    have h3 := nextChild_lt abc comp n (moveUp m h ci) c habc hc2
    have h4 := nextChild_isChild abc comp n (moveUp m h ci) c
    have hpow2 : 2 ^ (m.moves + 1 + 1) ≤ (nextChild abc comp n (moveUp m h ci) c).2.1 + 1 := by
      rw [pow_succ]
      simp only [IsChild] at h4
      omega
    have hk := hlog _ _ h3 hpow2
    simp only [checkTop, Mach.store_cmps, Mach.store_moves, Mach.call_cmps, Mach.deref_cmps,
      Mach.call_moves, Mach.deref_moves, List.length_append, List.length_singleton,
      moveUp_moves, moveUp_cmps] at h1 h2 ⊢
    omega
  · rintro m h ci c ⟨_, hc, hpow, hcmp⟩ hl _
    have hc2 : 2 * c + 1 < n := by have := leaf_test n c hn; omega
    have h1 := nextChild_cmps_le abc comp n (moveUp m h ci) c
    have h2 := nextChild_moves abc comp n (moveUp m h ci) c
    have h3 := nextChild_lt abc comp n (moveUp m h ci) c habc hc2
    have h4 := nextChild_isChild abc comp n (moveUp m h ci) c
    have h5 := nextChild_pos_eq abc comp n (moveUp m h ci) c
    have hpow2 : 2 ^ (m.moves + 1 + 1) ≤ (nextChild abc comp n (moveUp m h ci) c).2.1 + 1 := by
      rw [pow_succ]
      simp only [IsChild] at h4
      omega
    simp only [checkTop, Mach.call_cmps, Mach.deref_cmps, Mach.call_moves, Mach.deref_moves,
      List.length_append, List.length_singleton, moveUp_moves, moveUp_cmps] at h1 h2 ⊢
    rw [h2, h5]
    exact ⟨rfl, h3, hpow2, by omega⟩

/-- C3: for `n ≥ 2` and a start with a left child inside the region, one call of `__sift_down`
with `__assume_both_children = false` returns after at most `2 * ⌊log2 n⌋` comparator
invocations and at most `⌊log2 n⌋` element moves (assignments of line 71). -/
theorem sift_down_cost (comp : α → α → Bool) (s : Nat → α) (n start : Nat)
    (hn : 2 ≤ n) (hstart : 2 * start + 1 < n) :
    ∃ r, sift_down false comp s n start = some r ∧
      r.cmps.length ≤ 2 * Nat.log 2 n ∧ r.moves ≤ Nat.log 2 n :=
  sift_down_cost_aux false comp s n start (fun h => Bool.noConfusion h) hn hstart

theorem sift_down_cost_witness :
    2 ≤ 3 ∧ 2 * 0 + 1 < 3 ∧
    ∃ r, sift_down false natLt (ofList [1, 3, 2] 0) 3 0 = some r ∧
      r.cmps.length ≤ 2 * Nat.log 2 3 ∧ r.moves ≤ Nat.log 2 3 :=
  ⟨by decide, by decide, sift_down_cost natLt (ofList [1, 3, 2] 0) 3 0 (by decide) (by decide)⟩

end Cost

/-! ## The loop of `__floyd_sift_down`: invariant rule and termination -/

section FloydRule

variable {α : Type}

/-- One evaluation of the loop condition of `__floyd_sift_down`, followed by the body. -/
theorem floyd_sift_down_loop_succ (comp : α → α → Bool) (len fuel : Nat) (m : Mach α)
    (hole ci c : Nat) :
    floyd_sift_down_loop comp len (fuel + 1) m hole ci c =
      if c ≤ len / 2 then
        floyd_sift_down_loop comp len fuel
          (moveUp (choose_child true comp m (ci + c) (c * 2) len).1 hole
            (choose_child true comp m (ci + c) (c * 2) len).2.1)
          (choose_child true comp m (ci + c) (c * 2) len).2.1
          (choose_child true comp m (ci + c) (c * 2) len).2.1
          (choose_child true comp m (ci + c) (c * 2) len).2.2
      else
        some (m, hole, c) := by
  simp only [floyd_sift_down_loop, moveUp]

/-- Invariant rule for the loop of `__floyd_sift_down`: if `Inv` keeps `__child` positive, is
preserved by the body and gives `Post` once the loop condition fails, then the loop returns a
triple satisfying `Post`, as soon as the fuel covers the distance from `c` to `len / 2`. -/
theorem floyd_sift_down_loop_rule (comp : α → α → Bool) (len : Nat)
    (Inv : Mach α → Nat → Nat → Nat → Prop) (Post : Mach α × Nat × Nat → Prop)
    (hpos : ∀ m hole ci c, Inv m hole ci c → 1 ≤ c)
    (hdone : ∀ m hole ci c, Inv m hole ci c → ¬ c ≤ len / 2 → Post (m, hole, c))
    (hstep : ∀ m hole ci c, Inv m hole ci c → c ≤ len / 2 →
      Inv (moveUp (choose_child true comp m (ci + c) (c * 2) len).1 hole
          (choose_child true comp m (ci + c) (c * 2) len).2.1)
        (choose_child true comp m (ci + c) (c * 2) len).2.1
        (choose_child true comp m (ci + c) (c * 2) len).2.1
        (choose_child true comp m (ci + c) (c * 2) len).2.2) :
    ∀ (fuel : Nat) (m : Mach α) (hole ci c : Nat), Inv m hole ci c → 1 ≤ fuel →
      len / 2 + 2 ≤ fuel + c →
      ∃ r, floyd_sift_down_loop comp len fuel m hole ci c = some r ∧ Post r := by
  intro fuel
  induction fuel with
  | zero => intro m hole ci c _ h1; omega
  | succ fuel ih =>
    intro m hole ci c hinv _ hfuel
    rw [floyd_sift_down_loop_succ]
    by_cases hl : c ≤ len / 2
    · rw [if_pos hl]
      have hc1 := hpos m hole ci c hinv
      have hgt : c * 2 ≤ (choose_child true comp m (ci + c) (c * 2) len).2.2 := by
        rw [choose_child_pos]; split <;> omega
      exact ih _ _ _ _ (hstep m hole ci c hinv hl) (by omega) (by omega)
    · rw [if_neg hl]
      exact ⟨_, rfl, hdone m hole ci c hinv hl⟩

/-- Invariant rule for a whole call of `__floyd_sift_down`. -/
theorem floyd_sift_down_rule (comp : α → α → Bool) (s : Nat → α) (len : Nat)
    (Inv : Mach α → Nat → Nat → Nat → Prop) (Post : Mach α × Nat × Nat → Prop)
    (hinit : Inv (Mach.init s) 0 0 1)
    (hpos : ∀ m hole ci c, Inv m hole ci c → 1 ≤ c)
    (hdone : ∀ m hole ci c, Inv m hole ci c → ¬ c ≤ len / 2 → Post (m, hole, c))
    (hstep : ∀ m hole ci c, Inv m hole ci c → c ≤ len / 2 →
      Inv (moveUp (choose_child true comp m (ci + c) (c * 2) len).1 hole
          (choose_child true comp m (ci + c) (c * 2) len).2.1)
        (choose_child true comp m (ci + c) (c * 2) len).2.1
        (choose_child true comp m (ci + c) (c * 2) len).2.1
        (choose_child true comp m (ci + c) (c * 2) len).2.2) :
    ∃ r, floyd_sift_down comp s len = some r ∧ Post r :=
  floyd_sift_down_loop_rule comp len Inv Post hpos hdone hstep (len + 1) _ _ _ _ hinit
    (by omega) (by omega)

/-- Every call of `__floyd_sift_down` returns: the fuel handed to the loop is never exhausted. -/
theorem floyd_sift_down_returns (comp : α → α → Bool) (s : Nat → α) (len : Nat) :
    ∃ r, floyd_sift_down comp s len = some r := by
  obtain ⟨r, hr, _⟩ := floyd_sift_down_rule comp s len (fun _ _ _ c => 1 ≤ c) (fun _ => True)
    (Nat.le_refl 1) (fun _ _ _ _ h => h) (fun _ _ _ _ _ _ => trivial)
    (by
      intro m hole ci c hc _
      show 1 ≤ (choose_child true comp m (ci + c) (c * 2) len).2.2
      rw [choose_child_pos]; split <;> omega)
  exact ⟨r, hr⟩

end FloydRule

/-! ## Bounds of `__floyd_sift_down` (claim C8) -/

section FloydBounds

variable {α : Type}

/-- For `len = 2` the single iteration of `__floyd_sift_down` dereferences offset `2`, whatever
the sequence and the comparator are: `__child_i` is advanced to offset `1` and
`__choose_child<_, true>` reads `*(__child_i + 1)`. -/
theorem floyd_sift_down_len_two (comp : α → α → Bool) (s : Nat → α) :
    ∃ r, floyd_sift_down comp s 2 = some r ∧ 2 ∈ r.1.acc := by
  cases hc : comp (s 1) (s 2) <;>
    simp [floyd_sift_down, floyd_sift_down_loop, choose_child, hc]

/-- For an odd `len` the loop guard does keep `__floyd_sift_down` inside the region: every
dereferenced offset is below `len`, the returned hole is a position of the region without a child
in it, and the returned `__child` is the one-based index of the hole. -/
theorem floyd_sift_down_odd (comp : α → α → Bool) (s : Nat → α) (len : Nat)
    (hodd : len % 2 = 1) :
    ∃ r, floyd_sift_down comp s len = some r ∧
      (∀ i ∈ r.1.acc, i < len) ∧ r.2.1 < len ∧ len ≤ 2 * r.2.1 + 1 ∧ r.2.2 = r.2.1 + 1 := by
  apply floyd_sift_down_rule comp s len
    (fun m hole ci c => hole = ci ∧ c = ci + 1 ∧ ci < len ∧ ∀ i ∈ m.acc, i < len)
    (fun r => (∀ i ∈ r.1.acc, i < len) ∧ r.2.1 < len ∧ len ≤ 2 * r.2.1 + 1 ∧
      r.2.2 = r.2.1 + 1)
  · exact ⟨rfl, rfl, by omega, by simp⟩
  · rintro m hole ci c ⟨_, hc, _, _⟩; omega
  · rintro m hole ci c ⟨hh, hc, hci, hacc⟩ hl
    show (∀ i ∈ m.acc, i < len) ∧ hole < len ∧ len ≤ 2 * hole + 1 ∧ c = hole + 1
    exact ⟨hacc, by omega, by omega, by omega⟩
  · rintro m hole ci c ⟨hh, hc, hci, hacc⟩ hl
    have hleft := choose_child_left true comp m (ci + c) (c * 2) len
    have hpos := choose_child_pos true comp m (ci + c) (c * 2) len
    have hlt : (choose_child true comp m (ci + c) (c * 2) len).2.1 < len := by
      rw [hleft]; split <;> omega
    refine ⟨rfl, ?_, hlt, ?_⟩
    · rw [hleft, hpos]; split <;> omega
    · intro i hi
      simp only [moveUp, Mach.moved_acc, Mach.store_acc, Mach.deref_acc, choose_child_acc,
        true_or, if_true, List.mem_append, List.mem_cons, List.mem_singleton,
        List.not_mem_nil, or_false] at hi
      rcases hi with ((hi | hi | hi) | hi) | hi
      · exact hacc i hi
      · omega
      · omega
      · omega
      · omega

/-- C8, counterexample: on the two-element sequence `[1, 2]` with `len = 2`,
`__floyd_sift_down` dereferences the offsets `1, 2, 1, 0` in this order; offset `2` is outside
`[0, 2)`. The loop guard `__child <= __len / 2` held for `__child = 1`, and the comparator was
invoked on `(2, 0)`, the second argument being the cell past the end of the sequence. -/
theorem floyd_sift_down_even_len_reads_past_end :
    (floyd_sift_down natLt (ofList [1, 2] 0) 2).map (fun r => (r.1.acc, r.1.cmps, r.2.1))
        = some ([1, 2, 1, 0], [(2, 0)], 1) ∧
      ¬ ∃ r, floyd_sift_down natLt (ofList [1, 2] 0) 2 = some r ∧ ∀ i ∈ r.1.acc, i < 2 := by
  have h1 : (floyd_sift_down natLt (ofList [1, 2] 0) 2).map (fun r => (r.1.acc, r.1.cmps, r.2.1))
      = some ([1, 2, 1, 0], [(2, 0)], 1) := by decide
  refine ⟨h1, ?_⟩
  rintro ⟨r, hr, hall⟩
  rw [hr] at h1
  simp only [Option.map_some', Option.some.injEq, Prod.mk.injEq] at h1
  have h2 := hall 2 (by rw [h1.1]; simp)
  omega

/-- C8, amended: for every odd `len` and every sequence, `__floyd_sift_down` returns and every
position it read or wrote lies in `[0, len)`: in every iteration the right child dereferenced by
`__choose_child<_, true>` is below `len`, and so is the returned hole. For an odd `len` the loop
guard `__child <= __len / 2` does guarantee a right child in range. -/
theorem floyd_sift_down_stays_in_region (comp : α → α → Bool) (s : Nat → α) (len : Nat)
    (hodd : len % 2 = 1) :
    ∃ r, floyd_sift_down comp s len = some r ∧ (∀ i ∈ r.1.acc, i < len) ∧ r.2.1 < len := by
  obtain ⟨r, hr, hacc, hlt, _⟩ := floyd_sift_down_odd comp s len hodd
  exact ⟨r, hr, hacc, hlt⟩

theorem floyd_sift_down_stays_in_region_witness :
    5 % 2 = 1 ∧
    (floyd_sift_down natLt (ofList [1, 5, 4, 2, 3] 0) 5).map (fun r => (r.1.acc, r.2.1))
      = some ([1, 2, 1, 0, 3, 4, 4, 1], 4) ∧
    ∃ r, floyd_sift_down natLt (ofList [1, 5, 4, 2, 3] 0) 5 = some r ∧
      (∀ i ∈ r.1.acc, i < 5) ∧ r.2.1 < 5 :=
  ⟨by decide, by decide,
    floyd_sift_down_stays_in_region natLt (ofList [1, 5, 4, 2, 3] 0) 5 (by decide)⟩

end FloydBounds

/-! ## `__sift_down` only rearranges the region (claim C2) -/

section Rearrange

variable {α : Type}

theorem setAt_self (s : Nat → α) (i : Nat) : setAt s i (s i) = s := by
  funext j
  by_cases h : j = i
  · simp [setAt, h]
  · simp [setAt, h]

/-- Moving the value at `c` into the vacancy `h` and then filling `c` with `v` is the vacancy
filled with `v`, read through the transposition of `h` and `c`. -/
theorem setAt_setAt_eq_swap (t : Nat → α) (h c : Nat) (v : α) (hne : h ≠ c) :
    setAt (setAt t h (t c)) c v = setAt t h v ∘ Equiv.swap h c := by
  funext j
  simp only [Function.comp_apply, setAt_apply]
  by_cases hjc : j = c
  · subst hjc
    simp [Equiv.swap_apply_right]
  · by_cases hjh : j = h
    · subst hjh
      simp [Equiv.swap_apply_left, hjc, Ne.symm hne]
    · simp [Equiv.swap_apply_of_ne_of_ne hjh hjc, hjc, hjh]

theorem range_map_swap_perm (len h c : Nat) (hh : h < len) (hc : c < len) :
    ((List.range len).map (Equiv.swap h c)).Perm (List.range len) := by
  rw [List.perm_ext_iff_of_nodup
    ((List.nodup_range len).map (Equiv.swap h c).injective) (List.nodup_range len)]
  intro a
  simp only [List.mem_map, List.mem_range]
  constructor
  · rintro ⟨b, hb, rfl⟩
    by_cases hbh : b = h
    · subst hbh; simpa using hc
    · by_cases hbc : b = c
      · subst hbc; simpa using hh
      · rw [Equiv.swap_apply_of_ne_of_ne hbh hbc]; exact hb
  · intro ha
    refine ⟨Equiv.swap h c a, ?_, by simp⟩
    by_cases hah : a = h
    · subst hah; simpa using hc
    · by_cases hac : a = c
      · subst hac; simpa using hh
      · rw [Equiv.swap_apply_of_ne_of_ne hah hac]; exact ha

/-- One step of the descent keeps the multiset of the region, once the vacancy is filled. -/
theorem region_step_perm (t : Nat → α) (len h c : Nat) (v : α) (hh : h < len) (hc : c < len)
    (hne : h ≠ c) :
    (region (setAt (setAt t h (t c)) c v) len).Perm (region (setAt t h v) len) := by
  unfold region
  rw [setAt_setAt_eq_swap t h c v hne, ← List.map_map]
  exact (range_map_swap_perm len h c hh hc).map _

theorem sift_down_perm_aux (abc : Bool) (comp : α → α → Bool) (s : Nat → α) (len start : Nat)
    (habc : abc = true → len % 2 = 1) (hlen : 2 ≤ len) (hstart : 2 * start + 1 < len) :
    ∃ r, sift_down abc comp s len start = some r ∧ (region r.mem len).Perm (region s len) := by
  apply sift_down_rule abc comp s len start hlen
    (fun m h ci c => ci = c ∧ h < ci ∧ ci < len ∧
      (region (setAt m.mem h (s start)) len).Perm (region s len))
    (fun r => (region r.mem len).Perm (region s len))
  · intro _
    simp only [headCheck, Mach.call_mem, Mach.deref_mem, nextChild_mem, Mach.init_mem]
    exact List.Perm.refl _
  · intro _
    have h3 := nextChild_lt abc comp len (Mach.init s) start habc hstart
    have h4 := nextChild_isChild abc comp len (Mach.init s) start
    have h5 := nextChild_pos_eq abc comp len (Mach.init s) start
    refine ⟨h5.symm, ?_, h3, ?_⟩
    · simp only [IsChild] at h4; omega
    · simp only [headCheck, Mach.call_mem, Mach.deref_mem, nextChild_mem, Mach.init_mem,
        setAt_self]
      exact List.Perm.refl _
  · rintro m h ci c ⟨_, hhc, hci, hperm⟩ _
    simp only [Mach.store_mem, moveUp_mem]
    exact (region_step_perm m.mem len h ci (s start) (by omega) hci (by omega)).trans hperm
  · rintro m h ci c ⟨_, hhc, hci, hperm⟩ _ _
    simp only [checkTop, Mach.store_mem, Mach.call_mem, Mach.deref_mem, nextChild_mem,
      moveUp_mem]
    exact (region_step_perm m.mem len h ci (s start) (by omega) hci (by omega)).trans hperm
  · rintro m h ci c ⟨hcc, hhc, hci, hperm⟩ hl _
    have hc2 : 2 * c + 1 < len := by have := leaf_test len c hlen; omega
    have h3 := nextChild_lt abc comp len (moveUp m h ci) c habc hc2
    have h4 := nextChild_isChild abc comp len (moveUp m h ci) c
    have h5 := nextChild_pos_eq abc comp len (moveUp m h ci) c
    refine ⟨h5.symm, ?_, h3, ?_⟩
    · simp only [IsChild] at h4; omega
    · simp only [checkTop, Mach.call_mem, Mach.deref_mem, nextChild_mem, moveUp_mem]
      exact (region_step_perm m.mem len h ci (s start) (by omega) hci (by omega)).trans hperm

/-- The held value is written back: either nothing was moved and the memory is untouched, or the
last access of the call is the store of `__top` (line 85) into the final vacancy. -/
theorem sift_down_write_back_aux (abc : Bool) (comp : α → α → Bool) (s : Nat → α)
    (len start : Nat) (hlen : 2 ≤ len) :
    ∃ r, sift_down abc comp s len start = some r ∧
      ((r.moves = 0 ∧ r.mem = s) ∨
        (0 < r.moves ∧ ∃ e, r.acc.getLast? = some e ∧ r.mem e = s start)) := by
  apply sift_down_rule abc comp s len start hlen (fun _ _ _ _ => True)
    (fun r => (r.moves = 0 ∧ r.mem = s) ∨
      (0 < r.moves ∧ ∃ e, r.acc.getLast? = some e ∧ r.mem e = s start))
  · intro _
    left
    simp [headCheck, nextChild_mem, nextChild_moves]
  · intro _; trivial
  · intro m h ci c _ _
    right
    refine ⟨by simp [moveUp_moves], ci, by simp, ?_⟩
    simp only [Mach.store_mem, setAt_same]
  · intro m h ci c _ _ _
    right
    refine ⟨by simp [checkTop, nextChild_moves, moveUp_moves], ci, by simp, ?_⟩
    simp only [Mach.store_mem, setAt_same]
  · intro m h ci c _ _ _; trivial

/-- C2, counterexample: `__sift_down` with `__assume_both_children = true` on the region `[5, 6]`
of length 2, the cell past the region holding `7`: the selection reads the missing right child,
moves `7` into position `0` and writes the held `5` to offset `2`. The region becomes `[7, 6]`,
which is not a permutation of `[5, 6]`. -/
theorem sift_down_flag_true_even_len_not_perm :
    (sift_down true natLt (ofList [5, 6, 7] 0) 2 0).map (fun r => region r.mem 3)
        = some [7, 6, 5] ∧
      ¬ ∃ r, sift_down true natLt (ofList [5, 6, 7] 0) 2 0 = some r ∧
        (region r.mem 2).Perm (region (ofList [5, 6, 7] 0) 2) := by
  have h1 : (sift_down true natLt (ofList [5, 6, 7] 0) 2 0).map (fun r => region r.mem 2)
      = some [7, 6] := by decide
  refine ⟨by decide, ?_⟩
  rintro ⟨r, hr, hperm⟩
  rw [hr] at h1
  simp only [Option.map_some', Option.some.injEq] at h1
  rw [h1] at hperm
  have h7 : 7 ∈ region (ofList [5, 6, 7] 0) 2 := hperm.subset (by simp)
  revert h7
  decide

/-- C2, amended: with `__assume_both_children = false`, or with the flag set and `len` odd (where
the right child it reads unconditionally always exists), whenever `len < 2` or `start` has a left
child inside the region, a call of `__sift_down` returns and the region `[0, len)` afterwards is
a permutation of the region before: no value is duplicated or lost. The held value is written
back: either nothing was moved and the memory is untouched, or the last access of the call is
the store of `__top` into the final vacancy. -/
theorem sift_down_rearranges (abc : Bool) (comp : α → α → Bool) (s : Nat → α) (len start : Nat)
    (habc : abc = true → len % 2 = 1) (hstart : 2 * start + 1 < len ∨ len < 2) :
    ∃ r, sift_down abc comp s len start = some r ∧ (region r.mem len).Perm (region s len) ∧
      ((r.moves = 0 ∧ r.mem = s) ∨
        (0 < r.moves ∧ ∃ e, r.acc.getLast? = some e ∧ r.mem e = s start)) := by
  by_cases hlen : 2 ≤ len
  · obtain ⟨r, hr, hperm⟩ := sift_down_perm_aux abc comp s len start habc hlen (by omega)
    obtain ⟨r2, hr2, hback⟩ := sift_down_write_back_aux abc comp s len start hlen
    rw [hr] at hr2
    cases hr2
    exact ⟨r, hr, hperm, hback⟩
  · exact ⟨Mach.init s, by simp [sift_down, Nat.lt_of_not_le hlen], List.Perm.refl _,
      Or.inl ⟨rfl, rfl⟩⟩

theorem sift_down_rearranges_witness :
    (false = true → 3 % 2 = 1) ∧ (2 * 0 + 1 < 3 ∨ 3 < 2) ∧
    ∃ r, sift_down false natLt (ofList [1, 3, 2] 0) 3 0 = some r ∧
      (region r.mem 3).Perm (region (ofList [1, 3, 2] 0) 3) ∧
      ((r.moves = 0 ∧ r.mem = ofList [1, 3, 2] 0) ∨
        (0 < r.moves ∧ ∃ e, r.acc.getLast? = some e ∧ r.mem e = ofList [1, 3, 2] 0 0)) :=
  ⟨by decide, by decide,
    sift_down_rearranges false natLt (ofList [1, 3, 2] 0) 3 0 (by decide) (by decide)⟩

end Rearrange

/-! ## Heap postcondition of `__sift_down` (claim C1) -/

section Heap

variable {α : Type}

theorem InSubtree.le {start p : Nat} (hp : InSubtree start p) : start ≤ p := by
  induction hp with
  | root => exact Nat.le_refl _
  | left _ ih => omega
  | right _ ih => omega

theorem InSubtree.of_child {start p c : Nat} (hp : InSubtree start p) (hc : IsChild p c) :
    InSubtree start c := by
  rcases hc with rfl | rfl
  · exact InSubtree.left hp
  · exact InSubtree.right hp

/-- Every position belongs to the subtree of the root. -/
theorem inSubtree_zero (p : Nat) : InSubtree 0 p := by
  induction p using Nat.strong_induction_on with
  | _ p ih =>
    rcases Nat.eq_zero_or_pos p with rfl | hpos
    · exact InSubtree.root
    · rcases Nat.even_or_odd p with ⟨k, hk⟩ | ⟨k, hk⟩
      · have h1 : p = 2 * (k - 1) + 2 := by omega
        rw [h1]
        exact InSubtree.right (ih (k - 1) (by omega))
      · rw [hk]
        exact InSubtree.left (ih k (by omega))

theorem StrictWeakOrder.asymm {comp : α → α → Bool} (hswo : StrictWeakOrder comp) (a b : α)
    (hab : comp a b = true) : comp b a = false := by
  cases hba : comp b a
  · rfl
  · have := hswo.trans a b a hab hba
    rw [hswo.irrefl a] at this
    exact Bool.noConfusion this

/-- Filling the position of the selected child with `top`, after its value moved into the vacancy,
yields a heap on the whole subtree, provided `top` is not less than the children of that
position. -/
theorem HoleInv.fill {comp : α → α → Bool} {len start : Nat} {top : α} {mem : Nat → α}
    {h ci : Nat} (inv : HoleInv comp len start top mem h ci)
    (hbelow : ∀ q, IsChild ci q → q < len → comp top (mem q) = false) :
    ∀ p q, InSubtree start p → IsChild p q → q < len →
      comp (setAt (setAt mem h (mem ci)) ci top p) (setAt (setAt mem h (mem ci)) ci top q)
        = false := by
  intro p q hp hpq hq
  have hchild := inv.child
  simp only [setAt_apply]
  by_cases hpc : p = ci
  · subst hpc
    have hqc : q ≠ p := by simp only [IsChild] at hpq; omega
    have hqh : q ≠ h := by simp only [IsChild] at hpq hchild; omega
    simp only [if_true, if_neg hqc, if_neg hqh]
    exact hbelow q hpq hq
  · by_cases hph : p = h
    · subst hph
      simp only [if_neg hpc, if_true]
      have hqh : q ≠ p := by simp only [IsChild] at hpq; omega
      by_cases hqc : q = ci
      · simp only [if_pos hqc]
        exact inv.top_le
      · simp only [if_neg hqc, if_neg hqh]
        exact inv.max q hpq hq
    · simp only [if_neg hpc, if_neg hph]
      by_cases hqc : q = ci
      · exfalso; subst hqc
        simp only [IsChild] at hpq hchild; omega
      · simp only [if_neg hqc]
        by_cases hqh : q = h
        · subst hqh
          simp only [if_true]
          exact inv.skip p ci hp hpq hchild inv.lt
        · simp only [if_neg hqh]
          exact inv.others p q hp hph hpq hq

/-- One iteration that continues re-establishes the invariant one level further down. -/
theorem HoleInv.step {comp : α → α → Bool} {len start : Nat} {top : α} {mem : Nat → α}
    {h ci cj : Nat} (inv : HoleInv comp len start top mem h ci)
    (hirr : ∀ a, comp a a = false) (hchild : IsChild ci cj) (hlt : cj < len)
    (htop : comp (setAt mem h (mem ci) cj) top = false)
    (hmax : ∀ q, IsChild ci q → q < len →
      comp (setAt mem h (mem ci) cj) (setAt mem h (mem ci) q) = false) :
    HoleInv comp len start top (setAt mem h (mem ci)) ci cj := by
  have hhc := inv.child
  refine ⟨inv.sub.of_child inv.child, hchild, hlt, htop, hmax, ?_, ?_, ?_⟩
  · intro p q hp hpc hpq hq
    simp only [setAt_apply]
    by_cases hph : p = h
    · subst hph
      have hqh : q ≠ p := by simp only [IsChild] at hpq; omega
      simp only [if_true, if_neg hqh]
      by_cases hqc : q = ci
      · rw [hqc]; exact hirr _
      · exact inv.max q hpq hq
    · simp only [if_neg hph]
      by_cases hqh : q = h
      · subst hqh
        simp only [if_true]
        exact inv.skip p ci hp hpq hhc inv.lt
      · simp only [if_neg hqh]
        exact inv.others p q hp hph hpq hq
  · intro p q hp hpci hciq hq
    have hph : p = h := by simp only [IsChild] at hpci hhc; omega
    subst hph
    have hqh : q ≠ p := by simp only [IsChild] at hciq hhc; omega
    simp only [setAt_apply, if_true, if_neg hqh]
    exact inv.others ci q (inv.sub.of_child inv.child)
      (by simp only [IsChild] at hhc; omega) hciq hq
  · intro p hp hpci
    have hph : p = h := by simp only [IsChild] at hpci hhc; omega
    subst hph
    simp only [setAt_apply, if_true]
    exact inv.top_le

theorem sift_down_heap_aux (abc : Bool) (comp : α → α → Bool) (hswo : StrictWeakOrder comp)
    (s : Nat → α) (len start : Nat) (habc : abc = true → len % 2 = 1) (hlen : 2 ≤ len)
    (hstart : 2 * start + 1 < len)
    (hpre : ∀ p c, InSubtree start p → p ≠ start → IsChild p c → c < len →
      comp (s p) (s c) = false) :
    ∃ r, sift_down abc comp s len start = some r ∧
      ∀ p c, InSubtree start p → IsChild p c → c < len → comp (r.mem p) (r.mem c) = false := by
  apply sift_down_rule abc comp s len start hlen
    (fun m h ci c => ci = c ∧ HoleInv comp len start (s start) m.mem h ci)
    (fun r => ∀ p c, InSubtree start p → IsChild p c → c < len →
      comp (r.mem p) (r.mem c) = false)
  · intro hexit p q hp hpq hq
    simp only [headCheck, Mach.call_mem, Mach.deref_mem, nextChild_mem, Mach.init_mem]
    by_cases hps : p = start
    · subst hps
      have hmax := nextChild_max abc comp len (Mach.init s) p hswo.irrefl hswo.asymm q hpq hq
      simp only [Mach.init_mem] at hmax
      cases hcq : comp (s p) (s q)
      · rfl
      · rw [hswo.trans _ _ _ hexit hcq] at hmax
        exact Bool.noConfusion hmax
    · exact hpre p q hp hps hpq hq
  · intro hinit
    refine ⟨(nextChild_pos_eq _ _ _ _ _).symm, ?_⟩
    simp only [headCheck, Mach.call_mem, Mach.deref_mem, nextChild_mem, Mach.init_mem]
    refine ⟨InSubtree.root, nextChild_isChild _ _ _ _ _,
      nextChild_lt abc comp len (Mach.init s) start habc hstart, hinit, ?_, hpre, ?_, ?_⟩
    · exact nextChild_max abc comp len (Mach.init s) start hswo.irrefl hswo.asymm
    · intro p q hp hps
      have := hp.le
      simp only [IsChild] at hps; omega
    · intro p hp hps
      have := hp.le
      simp only [IsChild] at hps; omega
  · rintro m h ci c ⟨hcc, inv⟩ hl
    simp only [Mach.store_mem, moveUp_mem]
    apply inv.fill
    intro q hq hql
    have := (leaf_test len c hlen).1 hl
    simp only [IsChild] at hq; omega
  · rintro m h ci c ⟨hcc, inv⟩ hl hstop
    have hhc := inv.child
    simp only [checkTop, Mach.store_mem, Mach.call_mem, Mach.deref_mem, nextChild_mem,
      moveUp_mem] at hstop ⊢
    apply inv.fill
    intro q hq hql
    have hmax := nextChild_max abc comp len (moveUp m h ci) c hswo.irrefl hswo.asymm q
      (hcc ▸ hq) hql
    have hqh : q ≠ h := by simp only [IsChild] at hq hhc; omega
    simp only [moveUp_mem] at hmax
    rw [setAt_other _ _ q _ hqh] at hmax
    cases hcq : comp (s start) (m.mem q)
    · rfl
    · rw [hswo.trans _ _ _ hstop hcq] at hmax
      exact Bool.noConfusion hmax
  · rintro m h ci c ⟨hcc, inv⟩ hl hcont
    have hc2 : 2 * c + 1 < len := by have := leaf_test len c hlen; omega
    refine ⟨(nextChild_pos_eq _ _ _ _ _).symm, ?_⟩
    simp only [checkTop, Mach.call_mem, Mach.deref_mem, nextChild_mem, moveUp_mem] at hcont ⊢
    apply inv.step hswo.irrefl
    · exact hcc ▸ nextChild_isChild abc comp len (moveUp m h ci) c
    · exact nextChild_lt abc comp len (moveUp m h ci) c habc hc2
    · exact hcont
    · intro q hq hql
      have hmax := nextChild_max abc comp len (moveUp m h ci) c hswo.irrefl hswo.asymm q
        (hcc ▸ hq) hql
      simp only [moveUp_mem] at hmax
      exact hmax

/-- C1: let `comp` be a strict weak ordering, `len ≥ 2` and `2 * start + 1 < len`. If every
parent `p` that is a proper descendant of `start` satisfies `comp(s[p], s[c]) = false` for each of
its children `c < len`, then `__sift_down` with `__assume_both_children = false` returns, and
afterwards every parent `p` in the subtree of `start` (`start` included) satisfies
`comp(s'[p], s'[c]) = false` for each child `c < len`; for `start = 0` this is every parent of
the region. -/
theorem sift_down_restores_heap (comp : α → α → Bool) (hswo : StrictWeakOrder comp)
    (s : Nat → α) (len start : Nat) (hlen : 2 ≤ len) (hstart : 2 * start + 1 < len)
    (hpre : ∀ p c, InSubtree start p → p ≠ start → IsChild p c → c < len →
      comp (s p) (s c) = false) :
    ∃ r, sift_down false comp s len start = some r ∧
      (∀ p c, InSubtree start p → IsChild p c → c < len → comp (r.mem p) (r.mem c) = false) ∧
      (start = 0 → ∀ p c, IsChild p c → c < len → comp (r.mem p) (r.mem c) = false) := by
  obtain ⟨r, hr, hheap⟩ := sift_down_heap_aux false comp hswo s len start
    (fun h => Bool.noConfusion h) hlen hstart hpre
  refine ⟨r, hr, hheap, ?_⟩
  intro h0 p c hpc hc
  exact hheap p c (h0 ▸ inSubtree_zero p) hpc hc

theorem sift_down_restores_heap_witness :
    StrictWeakOrder natLt ∧ 2 ≤ 3 ∧ 2 * 0 + 1 < 3 ∧
    (∀ p c, InSubtree 0 p → p ≠ 0 → IsChild p c → c < 3 →
      natLt (ofList [1, 3, 2] 0 p) (ofList [1, 3, 2] 0 c) = false) ∧
    (sift_down false natLt (ofList [1, 3, 2] 0) 3 0).map (fun r => region r.mem 3)
      = some [3, 1, 2] ∧
    ∃ r, sift_down false natLt (ofList [1, 3, 2] 0) 3 0 = some r ∧
      (∀ p c, InSubtree 0 p → IsChild p c → c < 3 → natLt (r.mem p) (r.mem c) = false) ∧
      (0 = 0 → ∀ p c, IsChild p c → c < 3 → natLt (r.mem p) (r.mem c) = false) :=
  have hpre : ∀ p c, InSubtree 0 p → p ≠ 0 → IsChild p c → c < 3 →
      natLt (ofList [1, 3, 2] 0 p) (ofList [1, 3, 2] 0 c) = false := by
    intro p c _ hp hpc hc
    simp only [IsChild] at hpc
    omega
  ⟨natLt_strictWeakOrder, by decide, by decide, hpre, by decide,
    sift_down_restores_heap natLt natLt_strictWeakOrder (ofList [1, 3, 2] 0) 3 0 (by decide)
      (by decide) hpre⟩

end Heap

/-! ## A second call of `__sift_down` (claim C4) -/

section Twice

variable {α : Type}

/-- C4, counterexample: on `[1, 1]` with `len = 2`, `start = 0` the first call leaves `[1, 1]`,
and the second call on that result still performs one element move: the check of line 64,
`comp(1, 1)`, is false for two equivalent values, so the loop is entered. -/
theorem sift_down_twice_moves_equivalent :
    (sift_down false natLt (ofList [1, 1] 0) 2 0).map (fun r => region r.mem 2) = some [1, 1] ∧
    ((sift_down false natLt (ofList [1, 1] 0) 2 0).bind
        (fun r1 => sift_down false natLt r1.mem 2 0)).map (fun r2 => r2.moves) = some 1 := by
  decide

/-- C4, amended: under the precondition of sift-down (strict weak ordering, `len ≥ 2`, a left
child inside the region, heap order below `start`) the first call returns a state `r1`; if in
`r1` the value at `start` is not equivalent to the value of any of its children inside the region
(one of the two compares less than the other), then a second call on `r1` returns with zero
element moves, at most two comparator calls and the memory of `r1` unchanged. -/
theorem sift_down_twice (comp : α → α → Bool) (hswo : StrictWeakOrder comp)
    (s : Nat → α) (len start : Nat) (hlen : 2 ≤ len) (hstart : 2 * start + 1 < len)
    (hpre : ∀ p c, InSubtree start p → p ≠ start → IsChild p c → c < len →
      comp (s p) (s c) = false) :
    ∃ r1, sift_down false comp s len start = some r1 ∧
      ((∀ q, IsChild start q → q < len →
          comp (r1.mem start) (r1.mem q) = true ∨ comp (r1.mem q) (r1.mem start) = true) →
        ∃ r2, sift_down false comp r1.mem len start = some r2 ∧
          r2.moves = 0 ∧ r2.cmps.length ≤ 2 ∧ r2.mem = r1.mem) := by
  obtain ⟨r1, hr1, hheap⟩ := sift_down_heap_aux false comp hswo s len start
    (fun h => Bool.noConfusion h) hlen hstart hpre
  refine ⟨r1, hr1, ?_⟩
  intro hneq
  have hchild := nextChild_isChild false comp len (Mach.init r1.mem) start
  have hlt := nextChild_lt false comp len (Mach.init r1.mem) start
    (fun h => Bool.noConfusion h) hstart
  have hc : comp (r1.mem (choose_child false comp (Mach.init r1.mem) (2 * start + 1)
      (2 * start + 1) (len - 1)).2.1) (r1.mem start) = true := by
    rcases hneq _ hchild hlt with h | h
    · rw [hheap start _ InSubtree.root hchild hlt] at h
      exact Bool.noConfusion h
    · exact h
  obtain ⟨r2, hr2, hmem, hmoves, hcmps⟩ :=
    sift_down_of_child_lt false comp r1.mem len start hlen hc
  exact ⟨r2, hr2, hmoves, hcmps, hmem⟩

theorem sift_down_twice_witness :
    StrictWeakOrder natLt ∧ 2 ≤ 3 ∧ 2 * 0 + 1 < 3 ∧
    (∀ p c, InSubtree 0 p → p ≠ 0 → IsChild p c → c < 3 →
      natLt (ofList [1, 3, 2] 0 p) (ofList [1, 3, 2] 0 c) = false) ∧
    ((sift_down false natLt (ofList [1, 3, 2] 0) 3 0).bind
        (fun r1 => sift_down false natLt r1.mem 3 0)).map
          (fun r2 => (region r2.mem 3, r2.moves, r2.cmps.length)) = some ([3, 1, 2], 0, 2) ∧
    ∃ r1, sift_down false natLt (ofList [1, 3, 2] 0) 3 0 = some r1 ∧
      ((∀ q, IsChild 0 q → q < 3 →
          natLt (r1.mem 0) (r1.mem q) = true ∨ natLt (r1.mem q) (r1.mem 0) = true) →
        ∃ r2, sift_down false natLt r1.mem 3 0 = some r2 ∧
          r2.moves = 0 ∧ r2.cmps.length ≤ 2 ∧ r2.mem = r1.mem) :=
  have hpre : ∀ p c, InSubtree 0 p → p ≠ 0 → IsChild p c → c < 3 →
      natLt (ofList [1, 3, 2] 0 p) (ofList [1, 3, 2] 0 c) = false := by
    intro p c _ hp hpc hc
    simp only [IsChild] at hpc
    omega
  ⟨natLt_strictWeakOrder, by decide, by decide, hpre, by decide,
    sift_down_twice natLt natLt_strictWeakOrder (ofList [1, 3, 2] 0) 3 0 (by decide)
      (by decide) hpre⟩

end Twice

/-! ## The scenarios of the specification, evaluated on the model -/

section Scenarios

/-- Scenario A: `[3, 1, 2]` is left unchanged, with two comparisons and no move. -/
theorem scenario_A :
    (sift_down false natLt (ofList [3, 1, 2] 0) 3 0).map
        (fun r => (region r.mem 3, r.moves, r.cmps))
      = some ([3, 1, 2], 0, [(1, 2), (2, 3)]) := by
  decide

/-- Scenario B: `[1, 3, 2]` becomes `[3, 1, 2]` with one move. -/
theorem scenario_B :
    (sift_down false natLt (ofList [1, 3, 2] 0) 3 0).map
        (fun r => (region r.mem 3, r.moves, r.cmps))
      = some ([3, 1, 2], 1, [(3, 2), (3, 1)]) := by
  decide

/-- Scenario C: `[5, 9]` with `len = 2` becomes `[9, 5]`; the only comparison is the heap-order
check, the selection made none. -/
theorem scenario_C :
    (sift_down false natLt (ofList [5, 9] 0) 2 0).map
        (fun r => (region r.mem 2, r.moves, r.cmps))
      = some ([9, 5], 1, [(9, 5)]) := by
  decide

/-- A descent over two levels: `[1, 5, 4, 2, 3]` becomes `[5, 3, 4, 2, 1]` with two moves and
four comparisons, all dereferences inside `[0, 5)`. -/
theorem scenario_two_levels :
    (sift_down false natLt (ofList [1, 5, 4, 2, 3] 0) 5 0).map
        (fun r => (region r.mem 5, r.moves, r.cmps, r.acc))
      = some ([5, 3, 4, 2, 1], 2, [(5, 4), (5, 1), (2, 3), (3, 1)],
          [1, 2, 1, 0, 0, 1, 0, 3, 4, 4, 4, 1, 4]) := by
  decide

end Scenarios

/-! ## The heap postcondition with the comparator arguments as the specification writes them
(claim C11) -/

section RootHeap

variable {α : Type}

/-- C11, counterexample: `[3, 1, 2]` satisfies the precondition (the children of the root have no
children inside the region), `__sift_down` at the root leaves it unchanged, and afterwards
`comp(region[1], region[0]) = comp(1, 3)` is true for the child `1` of the root `0`. -/
theorem sift_down_child_less_than_parent :
    (sift_down false natLt (ofList [3, 1, 2] 0) 3 0).map
        (fun r => (region r.mem 3, natLt (r.mem 1) (r.mem 0)))
      = some ([3, 1, 2], true) := by
  decide

/-- C11, amended: for every strict weak ordering `comp` and every `len`, if every parent `p ≥ 1`
is in heap order with its children inside the region, then `__sift_down` at the root returns and
afterwards `comp(region[i], region[c])` is false for every index `i` and every child `c < len`
of `i`: no parent is less than one of its children. -/
theorem sift_down_root_heap (comp : α → α → Bool) (hswo : StrictWeakOrder comp)
    (s : Nat → α) (len : Nat)
    (hpre : ∀ p c, p ≠ 0 → IsChild p c → c < len → comp (s p) (s c) = false) :
    ∃ r, sift_down false comp s len 0 = some r ∧
      ∀ i c, IsChild i c → c < len → comp (r.mem i) (r.mem c) = false := by
  by_cases hlen : 2 ≤ len
  · obtain ⟨r, hr, hheap⟩ := sift_down_heap_aux false comp hswo s len 0
      (fun h => Bool.noConfusion h) hlen (by omega) (fun p c _ hp hpc hc => hpre p c hp hpc hc)
    exact ⟨r, hr, fun i c hic hc => hheap i c (inSubtree_zero i) hic hc⟩
  · refine ⟨Mach.init s, by simp [sift_down, Nat.lt_of_not_le hlen], ?_⟩
    intro i c hic hc
    simp only [IsChild] at hic
    omega

theorem sift_down_root_heap_witness :
    StrictWeakOrder natLt ∧
    (∀ p c, p ≠ 0 → IsChild p c → c < 5 →
      natLt (ofList [1, 5, 4, 2, 3] 0 p) (ofList [1, 5, 4, 2, 3] 0 c) = false) ∧
    ∃ r, sift_down false natLt (ofList [1, 5, 4, 2, 3] 0) 5 0 = some r ∧
      ∀ i c, IsChild i c → c < 5 → natLt (r.mem i) (r.mem c) = false :=
  have hpre : ∀ p c, p ≠ 0 → IsChild p c → c < 5 →
      natLt (ofList [1, 5, 4, 2, 3] 0 p) (ofList [1, 5, 4, 2, 3] 0 c) = false := by
    intro p c hp hpc hc
    have hp1 : p = 1 := by simp only [IsChild] at hpc; omega
    subst hp1
    rcases hpc with rfl | rfl <;> decide
  ⟨natLt_strictWeakOrder, hpre,
    sift_down_root_heap natLt natLt_strictWeakOrder (ofList [1, 5, 4, 2, 3] 0) 5 hpre⟩

end RootHeap

/-! ## The leaf test of line 74 (claim C14) -/

section LeafTest

variable {α : Type}

/-- C14: for integers `len ≥ 2` and `0 ≤ c < len`, the test `len / 2 - 1 < c` (truncating
division) holds exactly when position `c` has no child in the region, `len ≤ 2 * c + 1`; it
agrees with the test on natural numbers used by the loop, so one iteration of the loop of
`__sift_down` at the selected child `c` takes the `break` exactly in that case, and otherwise
goes on to the selection below `c`, whose left child `2 * c + 1` is inside the region. -/
theorem leaf_break_exact (len c : Int) (hlen : 2 ≤ len) (hc0 : 0 ≤ c) (_hc : c < len) :
    (leaf_break len c = true ↔ len ≤ 2 * c + 1) ∧
    (leaf_break len c = true ↔ len.toNat / 2 - 1 < c.toNat) ∧
    (leaf_break len c = false → 2 * c.toNat + 1 < len.toNat) ∧
    ∀ (abc : Bool) (comp : α → α → Bool) (top : α) (fuel : Nat) (m : Mach α) (h ci : Nat),
      sift_down_loop abc comp len.toNat top (fuel + 1) m h ci c.toNat =
        if leaf_break len c = true then
          some ((moveUp m h ci).store ci top)
        else
          if comp ((nextChild abc comp len.toNat (moveUp m h ci) c.toNat).1.mem
              (nextChild abc comp len.toNat (moveUp m h ci) c.toNat).2.1) top = false then
            sift_down_loop abc comp len.toNat top fuel
              (checkTop (nextChild abc comp len.toNat (moveUp m h ci) c.toNat).1
                (nextChild abc comp len.toNat (moveUp m h ci) c.toNat).2.1 top)
              ci (nextChild abc comp len.toNat (moveUp m h ci) c.toNat).2.1
              (nextChild abc comp len.toNat (moveUp m h ci) c.toNat).2.2
          else
            some ((checkTop (nextChild abc comp len.toNat (moveUp m h ci) c.toNat).1
                (nextChild abc comp len.toNat (moveUp m h ci) c.toNat).2.1 top).store ci top) := by
  have hdiv : Int.tdiv len 2 = len / 2 := Int.tdiv_eq_ediv (by omega) (by decide)
  have h1 : leaf_break len c = true ↔ len ≤ 2 * c + 1 := by
    simp only [leaf_break, decide_eq_true_eq, hdiv]
    omega
  have h2 : leaf_break len c = true ↔ len.toNat / 2 - 1 < c.toNat := by
    rw [h1]
    omega
  refine ⟨h1, h2, ?_, ?_⟩
  · intro hf
    have : ¬ len ≤ 2 * c + 1 := by
      intro hle
      rw [h1.2 hle] at hf
      exact Bool.noConfusion hf
    omega
  · intro abc comp top fuel m h ci
    rw [sift_down_loop_succ]
    by_cases hb : leaf_break len c = true
    · rw [if_pos hb, if_pos (h2.1 hb)]
    · rw [if_neg hb, if_neg (fun hlt => hb (h2.2 hlt))]

theorem leaf_break_exact_witness :
    (2 : Int) ≤ 5 ∧ (0 : Int) ≤ 1 ∧ (1 : Int) < 5 ∧
    (leaf_break 5 1 = true ↔ (5 : Int) ≤ 2 * 1 + 1) ∧
    (leaf_break 5 1 = true ↔ (5 : Int).toNat / 2 - 1 < (1 : Int).toNat) ∧
    (leaf_break 5 1 = false → 2 * (1 : Int).toNat + 1 < (5 : Int).toNat) :=
  ⟨by decide, by decide, by decide,
    (@leaf_break_exact Nat 5 1 (by decide) (by decide) (by decide)).1,
    (@leaf_break_exact Nat 5 1 (by decide) (by decide) (by decide)).2.1,
    (@leaf_break_exact Nat 5 1 (by decide) (by decide) (by decide)).2.2.1⟩

end LeafTest

/-! ## The two instantiations of `__sift_down` (claim C19) -/

section Flag

variable {α : Type}

/-- For an odd `len`, a left child inside the region has a right sibling inside the region, so
the selection does not depend on `__assume_both_children`. -/
theorem nextChild_flag (comp : α → α → Bool) (len : Nat) (m : Mach α) (c : Nat)
    (hodd : len % 2 = 1) (hc : 2 * c + 1 < len) :
    nextChild true comp len m c = nextChild false comp len m c := by
  have h : 2 * c + 1 < len - 1 := by omega
  simp [nextChild, choose_child, h]

theorem sift_down_loop_flag (comp : α → α → Bool) (len : Nat) (top : α) (hodd : len % 2 = 1)
    (hlen : 2 ≤ len) :
    ∀ (fuel : Nat) (m : Mach α) (h ci c : Nat),
      sift_down_loop true comp len top fuel m h ci c
        = sift_down_loop false comp len top fuel m h ci c := by
  intro fuel
  induction fuel with
  | zero => intro m h ci c; rfl
  | succ fuel ih =>
    intro m h ci c
    rw [sift_down_loop_succ, sift_down_loop_succ]
    by_cases hl : len / 2 - 1 < c
    · rw [if_pos hl, if_pos hl]
    · rw [if_neg hl, if_neg hl]
      have hc2 : 2 * c + 1 < len := by have := leaf_test len c hlen; omega
      rw [nextChild_flag comp len (moveUp m h ci) c hodd hc2, ih]

theorem sift_down_flag (comp : α → α → Bool) (s : Nat → α) (len start : Nat)
    (hodd : len % 2 = 1) (hlen : 2 ≤ len) (hstart : 2 * start + 1 < len) :
    sift_down true comp s len start = sift_down false comp s len start := by
  rw [sift_down_eq true comp s len start hlen, sift_down_eq false comp s len start hlen,
    nextChild_flag comp len (Mach.init s) start hodd hstart,
    sift_down_loop_flag comp len (s start) hodd hlen]

/-- C19: for an odd `len ≥ 3` and a start with a left child inside the region, `__sift_down`
with `__assume_both_children = true` returns the same state as with the flag false: the same
memory, the same comparator invocations in the same order, the same moves and the same
dereferences, all of them inside `[0, len)`. -/
theorem sift_down_flag_equivalence (comp : α → α → Bool) (s : Nat → α) (len start : Nat)
    (hodd : len % 2 = 1) (hlen : 3 ≤ len) (hstart : 2 * start + 1 < len) :
    sift_down true comp s len start = sift_down false comp s len start ∧
    ∃ r, sift_down true comp s len start = some r ∧
      sift_down false comp s len start = some r ∧ ∀ i ∈ r.acc, i < len := by
  have heq := sift_down_flag comp s len start hodd (by omega) hstart
  obtain ⟨r, hr, hacc⟩ := sift_down_acc_lt true comp s len start (fun _ => hodd) (by omega)
    hstart
  exact ⟨heq, r, hr, heq ▸ hr, hacc⟩

theorem sift_down_flag_equivalence_witness :
    5 % 2 = 1 ∧ 3 ≤ 5 ∧ 2 * 0 + 1 < 5 ∧
    (sift_down true natLt (ofList [1, 5, 4, 2, 3] 0) 5 0
      = sift_down false natLt (ofList [1, 5, 4, 2, 3] 0) 5 0 ∧
    ∃ r, sift_down true natLt (ofList [1, 5, 4, 2, 3] 0) 5 0 = some r ∧
      sift_down false natLt (ofList [1, 5, 4, 2, 3] 0) 5 0 = some r ∧ ∀ i ∈ r.acc, i < 5) :=
  ⟨by decide, by decide, by decide,
    sift_down_flag_equivalence natLt (ofList [1, 5, 4, 2, 3] 0) 5 0 (by decide) (by decide)
      (by decide)⟩

end Flag

/-! ## Frame of `__sift_down` (claim C18) -/

section Frame

variable {α : Type}

theorem InSubtree.trans {a b c : Nat} (hab : InSubtree a b) (hbc : InSubtree b c) :
    InSubtree a c := by
  induction hbc with
  | root => exact hab
  | left _ ih => exact InSubtree.left ih
  | right _ ih => exact InSubtree.right ih

/-- Frame of a call: there is a position `e` in the subtree of `start` (the last vacancy) such
that only positions on the path from `start` down to `e` can differ from the input; `e` is inside
the region when `__assume_both_children` is only set for an odd `len`. -/
theorem sift_down_frame_aux (abc : Bool) (comp : α → α → Bool) (s : Nat → α) (len start : Nat)
    (hlen : 2 ≤ len) (hstart : 2 * start + 1 < len) :
    ∃ r, sift_down abc comp s len start = some r ∧
      ∃ e, InSubtree start e ∧ ((abc = true → len % 2 = 1) → e < len) ∧
        ∀ j, ¬ (InSubtree start j ∧ InSubtree j e) → r.mem j = s j := by
  apply sift_down_rule abc comp s len start hlen
    (fun m h ci c => ci = c ∧ InSubtree start h ∧ IsChild h ci ∧
      ((abc = true → len % 2 = 1) → ci < len) ∧
      ∀ j, ¬ (InSubtree start j ∧ InSubtree j h) → m.mem j = s j)
    (fun r => ∃ e, InSubtree start e ∧ ((abc = true → len % 2 = 1) → e < len) ∧
      ∀ j, ¬ (InSubtree start j ∧ InSubtree j e) → r.mem j = s j)
  · intro _
    refine ⟨start, InSubtree.root, fun _ => by omega, ?_⟩
    intro j _
    simp only [headCheck, Mach.call_mem, Mach.deref_mem, nextChild_mem, Mach.init_mem]
  · intro _
    refine ⟨(nextChild_pos_eq _ _ _ _ _).symm, InSubtree.root, nextChild_isChild _ _ _ _ _,
      fun habc => nextChild_lt abc comp len (Mach.init s) start habc hstart, ?_⟩
    intro j _
    simp only [headCheck, Mach.call_mem, Mach.deref_mem, nextChild_mem, Mach.init_mem]
  · rintro m h ci c ⟨_, hsub, hchild, hci, hframe⟩ _
    refine ⟨ci, hsub.of_child hchild, hci, ?_⟩
    intro j hj
    have hjc : j ≠ ci := fun e => hj ⟨e ▸ hsub.of_child hchild, e ▸ InSubtree.root⟩
    have hjh : j ≠ h := fun e => hj ⟨e ▸ hsub, e ▸ InSubtree.root.of_child hchild⟩
    simp only [Mach.store_mem, moveUp_mem, setAt_apply, if_neg hjc, if_neg hjh]
    exact hframe j (fun hh => hj ⟨hh.1, hh.2.of_child hchild⟩)
  · rintro m h ci c ⟨_, hsub, hchild, hci, hframe⟩ _ _
    refine ⟨ci, hsub.of_child hchild, hci, ?_⟩
    intro j hj
    have hjc : j ≠ ci := fun e => hj ⟨e ▸ hsub.of_child hchild, e ▸ InSubtree.root⟩
    have hjh : j ≠ h := fun e => hj ⟨e ▸ hsub, e ▸ InSubtree.root.of_child hchild⟩
    simp only [checkTop, Mach.store_mem, Mach.call_mem, Mach.deref_mem, nextChild_mem,
      moveUp_mem, setAt_apply, if_neg hjc, if_neg hjh]
    exact hframe j (fun hh => hj ⟨hh.1, hh.2.of_child hchild⟩)
  · rintro m h ci c ⟨hcc, hsub, hchild, hci, hframe⟩ hl _
    have hc2 : 2 * c + 1 < len := by have := leaf_test len c hlen; omega
    refine ⟨(nextChild_pos_eq _ _ _ _ _).symm, hsub.of_child hchild,
      hcc ▸ nextChild_isChild abc comp len (moveUp m h ci) c,
      fun habc => nextChild_lt abc comp len (moveUp m h ci) c habc hc2, ?_⟩
    intro j hj
    have hjh : j ≠ h := fun e => hj ⟨e ▸ hsub, e ▸ InSubtree.root.of_child hchild⟩
    simp only [checkTop, Mach.call_mem, Mach.deref_mem, nextChild_mem, moveUp_mem, setAt_apply,
      if_neg hjh]
    exact hframe j (fun hh => hj ⟨hh.1, hh.2.of_child hchild⟩)

/-- C18, counterexample: `__sift_down` with `__assume_both_children = true` on the region `[5, 6]`
of length 2, the cell at offset `2` (past the region) holding `7`: after the call offset `2`
holds `5`. A position at or beyond `len` has changed. -/
theorem sift_down_flag_true_even_len_writes_past_end :
    (sift_down true natLt (ofList [5, 6, 7] 0) 2 0).map (fun r => r.mem 2) = some 5 ∧
      ofList [5, 6, 7] 0 2 = 7 ∧
      ¬ ∃ r, sift_down true natLt (ofList [5, 6, 7] 0) 2 0 = some r ∧
        ∀ j, 2 ≤ j → r.mem j = ofList [5, 6, 7] 0 j := by
  have h1 : (sift_down true natLt (ofList [5, 6, 7] 0) 2 0).map (fun r => r.mem 2) = some 5 := by
    decide
  refine ⟨h1, by decide, ?_⟩
  rintro ⟨r, hr, hall⟩
  rw [hr] at h1
  simp only [Option.map_some', Option.some.injEq] at h1
  have h2 := hall 2 (Nat.le_refl 2)
  rw [h1] at h2
  revert h2
  decide

/-- C18, amended: whenever `len < 2`, or `start` has a left child inside the region,
`__sift_down` returns and every position that is not in the subtree of `start` holds the value it
held before, for both instantiations; the positions that may differ lie on one downward path
from `start` to a position `e`. With `__assume_both_children = false`, or with the flag set and
`len` odd, every position at or beyond `len` is unchanged as well. -/
theorem sift_down_frame (abc : Bool) (comp : α → α → Bool) (s : Nat → α) (len start : Nat)
    (hstart : 2 * start + 1 < len ∨ len < 2) :
    ∃ r, sift_down abc comp s len start = some r ∧
      (∀ j, ¬ InSubtree start j → r.mem j = s j) ∧
      (∃ e, InSubtree start e ∧ ∀ j, ¬ (InSubtree start j ∧ InSubtree j e) → r.mem j = s j) ∧
      ((abc = true → len % 2 = 1) → ∀ j, len ≤ j → r.mem j = s j) := by
  by_cases hlen : 2 ≤ len
  · obtain ⟨r, hr, e, he, hlt, hframe⟩ :=
      sift_down_frame_aux abc comp s len start hlen (by omega)
    refine ⟨r, hr, fun j hj => hframe j (fun hh => hj hh.1), ⟨e, he, hframe⟩, ?_⟩
    intro habc j hj
    apply hframe j
    intro hh
    have := hh.2.le
    have := hlt habc
    omega
  · exact ⟨Mach.init s, by simp [sift_down, Nat.lt_of_not_le hlen], fun _ _ => rfl,
      ⟨start, InSubtree.root, fun _ _ => rfl⟩, fun _ _ _ => rfl⟩

theorem sift_down_frame_witness :
    (2 * 1 + 1 < 6 ∨ 6 < 2) ∧
    (sift_down false natLt (ofList [0, 1, 8, 9, 7, 6] 0) 6 1).map (fun r => region r.mem 7)
      = some [0, 9, 8, 1, 7, 6, 0] ∧
    ∃ r, sift_down false natLt (ofList [0, 1, 8, 9, 7, 6] 0) 6 1 = some r ∧
      (∀ j, ¬ InSubtree 1 j → r.mem j = ofList [0, 1, 8, 9, 7, 6] 0 j) ∧
      (∃ e, InSubtree 1 e ∧
        ∀ j, ¬ (InSubtree 1 j ∧ InSubtree j e) → r.mem j = ofList [0, 1, 8, 9, 7, 6] 0 j) ∧
      ((false = true → 6 % 2 = 1) → ∀ j, 6 ≤ j → r.mem j = ofList [0, 1, 8, 9, 7, 6] 0 j) :=
  ⟨by decide, by decide,
    sift_down_frame false natLt (ofList [0, 1, 8, 9, 7, 6] 0) 6 1 (by decide)⟩

end Frame

/-! ## Index arithmetic and cost of `__floyd_sift_down` (claims C13, C15, C16, C20) -/

section FloydIndex

variable {α : Type}

/-- The position one level below `n - 1` has one more binary digit. -/
theorem log_two_child (n k : Nat) (hn : 1 ≤ n) (hk : k = 2 * n ∨ k = 2 * n + 1) :
    Nat.log 2 k = Nat.log 2 n + 1 := by
  rw [Nat.log_of_one_lt_of_le (by decide) (by omega)]
  have : k / 2 = n := by omega
  rw [this]

/-- Loop invariant of `__floyd_sift_down`, for every `len`: `__child_i` and `__hole` coincide,
`__child` is the one-based index of the hole, every iteration made one comparison and one move,
and the number of moves is the depth of the hole. -/
theorem floyd_sift_down_index (comp : α → α → Bool) (s : Nat → α) (len : Nat) :
    ∃ r, floyd_sift_down comp s len = some r ∧
      r.2.2 = r.2.1 + 1 ∧ r.1.cmps.length = r.1.moves ∧
      r.1.moves = Nat.log 2 (r.2.1 + 1) ∧ (r.2.1 = 0 ∨ r.2.1 ∈ r.1.acc) := by
  apply floyd_sift_down_rule comp s len
    (fun m hole ci c => hole = ci ∧ c = ci + 1 ∧ m.cmps.length = m.moves ∧
      m.moves = Nat.log 2 (ci + 1) ∧ (ci = 0 ∨ ci ∈ m.acc))
    (fun r => r.2.2 = r.2.1 + 1 ∧ r.1.cmps.length = r.1.moves ∧
      r.1.moves = Nat.log 2 (r.2.1 + 1) ∧ (r.2.1 = 0 ∨ r.2.1 ∈ r.1.acc))
  · exact ⟨rfl, rfl, rfl, by simp, Or.inl rfl⟩
  · rintro m hole ci c ⟨_, hc, _, _, _⟩; omega
  · rintro m hole ci c ⟨hh, hc, hcm, hlog, hacc⟩ _
    show c = hole + 1 ∧ m.cmps.length = m.moves ∧ m.moves = Nat.log 2 (hole + 1) ∧
      (hole = 0 ∨ hole ∈ m.acc)
    subst hh
    exact ⟨hc, hcm, hlog, hacc⟩
  · rintro m hole ci c ⟨hh, hc, hcm, hlog, hacc⟩ _
    have hleft := choose_child_left true comp m (ci + c) (c * 2) len
    have hpos := choose_child_pos true comp m (ci + c) (c * 2) len
    refine ⟨rfl, ?_, ?_, ?_, ?_⟩
    · rw [hleft, hpos]; split <;> omega
    · simp only [moveUp, Mach.moved_cmps, Mach.store_cmps, Mach.deref_cmps, Mach.moved_moves,
        Mach.store_moves, Mach.deref_moves, choose_child_cmps, choose_child_moves, true_or,
        if_true, List.length_append, List.length_singleton]
      omega
    · simp only [moveUp, Mach.moved_moves, Mach.store_moves, Mach.deref_moves,
        choose_child_moves]
      rw [hlog, hleft]
      symm
      apply log_two_child _ _ (by omega)
      split <;> omega
    · right
      simp [moveUp]

/-- C13, counterexample: on `[1, 2, 3]` with `len = 3` the call returns the hole at position `2`
together with the value `3`; the depth of position `2` is `⌊log2 3⌋ = 1`. -/
theorem floyd_sift_down_second_result_not_depth :
    (floyd_sift_down natLt (ofList [1, 2, 3] 0) 3).map (fun r => (r.2.1, r.2.2)) = some (2, 3) ∧
    Nat.log 2 (2 + 1) = 1 ∧
    ¬ ∃ r, floyd_sift_down natLt (ofList [1, 2, 3] 0) 3 = some r ∧
      r.2.2 = Nat.log 2 (r.2.1 + 1) := by
  have h1 : (floyd_sift_down natLt (ofList [1, 2, 3] 0) 3).map (fun r => (r.2.1, r.2.2))
      = some (2, 3) := by decide
  have h2 : Nat.log 2 (2 + 1) = 1 := by
    rw [Nat.log_of_one_lt_of_le (by decide) (by decide)]
    simp
  refine ⟨h1, h2, ?_⟩
  rintro ⟨r, hr, hd⟩
  rw [hr] at h1
  simp only [Option.map_some', Option.some.injEq, Prod.mk.injEq] at h1
  rw [h1.1, h1.2, h2] at hd
  omega

/-- C13, amended: for every `len ≥ 1` the call returns the pair `(h, d)` where `d = h + 1` is the
one-based index of the final hole position `h`; the depth of `h`, which is the number of levels
the hole was sunk (the number of moves), is `⌊log2 d⌋ = ⌊log2 (h + 1)⌋`. -/
theorem floyd_sift_down_second_result (comp : α → α → Bool) (s : Nat → α) (len : Nat)
    (_hlen : 1 ≤ len) :
    ∃ r, floyd_sift_down comp s len = some r ∧
      r.2.2 = r.2.1 + 1 ∧ Nat.log 2 r.2.2 = r.1.moves ∧ Nat.log 2 (r.2.1 + 1) = r.1.moves := by
  obtain ⟨r, hr, hchild, _, hlog, _⟩ := floyd_sift_down_index comp s len
  exact ⟨r, hr, hchild, by rw [hchild, hlog], hlog.symm⟩

theorem floyd_sift_down_second_result_witness :
    1 ≤ 3 ∧
    ∃ r, floyd_sift_down natLt (ofList [1, 2, 3] 0) 3 = some r ∧
      r.2.2 = r.2.1 + 1 ∧ Nat.log 2 r.2.2 = r.1.moves ∧ Nat.log 2 (r.2.1 + 1) = r.1.moves :=
  ⟨by decide, floyd_sift_down_second_result natLt (ofList [1, 2, 3] 0) 3 (by decide)⟩

/-- C15: for every `len ≥ 1` the call returns (the loop terminates); the number of comparator
calls equals the number of element moves, one of each per iteration, and equals the depth of the
returned hole. If the call dereferenced only positions in `[0, len)`, which is the case for every
odd `len`, that number is at most `⌊log2 len⌋`; it is zero for `len = 1`. -/
theorem floyd_sift_down_cost (comp : α → α → Bool) (s : Nat → α) (len : Nat) (hlen : 1 ≤ len) :
    ∃ r, floyd_sift_down comp s len = some r ∧
      r.1.cmps.length = r.1.moves ∧ r.1.moves = Nat.log 2 (r.2.1 + 1) ∧
      ((∀ i ∈ r.1.acc, i < len) → r.1.moves ≤ Nat.log 2 len) ∧
      (len % 2 = 1 → (∀ i ∈ r.1.acc, i < len) ∧ r.1.moves ≤ Nat.log 2 len) ∧
      (len = 1 → r.1.moves = 0) := by
  obtain ⟨r, hr, _, hcm, hlog, hacc⟩ := floyd_sift_down_index comp s len
  have hbound : (∀ i ∈ r.1.acc, i < len) → r.1.moves ≤ Nat.log 2 len := by
    intro hin
    rw [hlog]
    apply Nat.log_mono_right
    rcases hacc with h0 | hmem
    · omega
    · exact hin _ hmem
  have hoddin : len % 2 = 1 → ∀ i ∈ r.1.acc, i < len := by
    intro hodd
    obtain ⟨r2, hr2, hin, _⟩ := floyd_sift_down_odd comp s len hodd
    rw [hr] at hr2
    cases hr2
    exact hin
  refine ⟨r, hr, hcm, hlog, hbound, fun hodd => ⟨hoddin hodd, hbound (hoddin hodd)⟩, ?_⟩
  intro h1
  subst h1
  have := hbound (hoddin (by decide))
  simpa using this

theorem floyd_sift_down_cost_witness :
    1 ≤ 5 ∧
    (floyd_sift_down natLt (ofList [1, 5, 4, 2, 3] 0) 5).map
        (fun r => (r.1.cmps, r.1.moves, r.2.1)) = some ([(5, 4), (2, 3)], 2, 4) ∧
    ∃ r, floyd_sift_down natLt (ofList [1, 5, 4, 2, 3] 0) 5 = some r ∧
      r.1.cmps.length = r.1.moves ∧ r.1.moves = Nat.log 2 (r.2.1 + 1) ∧
      ((∀ i ∈ r.1.acc, i < 5) → r.1.moves ≤ Nat.log 2 5) ∧
      (5 % 2 = 1 → (∀ i ∈ r.1.acc, i < 5) ∧ r.1.moves ≤ Nat.log 2 5) ∧
      (5 = 1 → r.1.moves = 0) :=
  ⟨by decide, by decide, floyd_sift_down_cost natLt (ofList [1, 5, 4, 2, 3] 0) 5 (by decide)⟩

/-- C16: for every odd `len` the call returns a hole position `h` with `h < len` and
`len ≤ 2 * h + 1`: the hole is a position of the region without a child in the region. -/
theorem floyd_sift_down_hole_is_leaf (comp : α → α → Bool) (s : Nat → α) (len : Nat)
    (hodd : len % 2 = 1) :
    ∃ r, floyd_sift_down comp s len = some r ∧ r.2.1 < len ∧ len ≤ 2 * r.2.1 + 1 := by
  obtain ⟨r, hr, _, hlt, hleaf, _⟩ := floyd_sift_down_odd comp s len hodd
  exact ⟨r, hr, hlt, hleaf⟩

theorem floyd_sift_down_hole_is_leaf_witness :
    5 % 2 = 1 ∧
    ∃ r, floyd_sift_down natLt (ofList [1, 5, 4, 2, 3] 0) 5 = some r ∧
      r.2.1 < 5 ∧ 5 ≤ 2 * r.2.1 + 1 :=
  ⟨by decide, floyd_sift_down_hole_is_leaf natLt (ofList [1, 5, 4, 2, 3] 0) 5 (by decide)⟩

/-- C20: for every `len ≥ 1` the call returns a pair `(hole, child)` with `child = hole + 1`;
the body of the loop preserves "`__child_i` is the hole and `__child` is its one-based index"
(from a hole at offset `h` it selects an offset `h'` and the position `h' + 1`); and for
`len = 1` the result is `(0, 1)` on the untouched state: no comparator call, no move, no
dereference. -/
theorem floyd_sift_down_child_is_index (comp : α → α → Bool) (s : Nat → α) (len : Nat)
    (_hlen : 1 ≤ len) :
    (∃ r, floyd_sift_down comp s len = some r ∧ r.2.2 = r.2.1 + 1) ∧
    (∀ (m : Mach α) (h : Nat),
      (choose_child true comp m (h + (h + 1)) ((h + 1) * 2) len).2.2
        = (choose_child true comp m (h + (h + 1)) ((h + 1) * 2) len).2.1 + 1) ∧
    (len = 1 → floyd_sift_down comp s len = some (Mach.init s, 0, 1)) := by
  obtain ⟨r, hr, hchild, _⟩ := floyd_sift_down_index comp s len
  refine ⟨⟨r, hr, hchild⟩, ?_, ?_⟩
  · intro m h
    rw [choose_child_left, choose_child_pos]
    split <;> omega
  · intro h1
    subst h1
    rfl

theorem floyd_sift_down_child_is_index_witness :
    1 ≤ 1 ∧
    (∃ r, floyd_sift_down natLt (ofList [7] 0) 1 = some r ∧ r.2.2 = r.2.1 + 1) ∧
    (∀ (m : Mach Nat) (h : Nat),
      (choose_child true natLt m (h + (h + 1)) ((h + 1) * 2) 1).2.2
        = (choose_child true natLt m (h + (h + 1)) ((h + 1) * 2) 1).2.1 + 1) ∧
    (1 = 1 → floyd_sift_down natLt (ofList [7] 0) 1 = some (Mach.init (ofList [7] 0), 0, 1)) :=
  ⟨by decide, floyd_sift_down_child_is_index natLt (ofList [7] 0) 1 (by decide)⟩

end FloydIndex

/-! ## What `__floyd_sift_down` does to the region (claims C12, C17) -/

section FloydRegion

variable {α : Type}

/-- With the flag set, the selected child is not less than the left and the right child. -/
theorem choose_child_true_max (comp : α → α → Bool) (m : Mach α) (left pos bound : Nat)
    (hirr : ∀ a, comp a a = false) (hasym : ∀ a b, comp a b = true → comp b a = false) :
    comp (m.mem (choose_child true comp m left pos bound).2.1) (m.mem left) = false ∧
    comp (m.mem (choose_child true comp m left pos bound).2.1) (m.mem (left + 1)) = false := by
  rw [choose_child_left]
  cases hc : comp (m.mem left) (m.mem (left + 1))
  · rw [if_neg (by simp)]
    exact ⟨hirr _, hc⟩
  · rw [if_pos ⟨Or.inl rfl, rfl⟩]
    exact ⟨hasym _ _ hc, hirr _⟩

theorem floyd_sift_down_perm_aux (comp : α → α → Bool) (s : Nat → α) (len : Nat)
    (hodd : len % 2 = 1) :
    ∃ r, floyd_sift_down comp s len = some r ∧
      (region (setAt r.1.mem r.2.1 (s 0)) len).Perm (region s len) ∧
      r.1.mem r.2.1 = s r.2.1 ∧ (0 < r.2.1 → r.1.mem ((r.2.1 - 1) / 2) = s r.2.1) := by
  apply floyd_sift_down_rule comp s len
    (fun m hole ci c => hole = ci ∧ c = ci + 1 ∧ ci < len ∧
      (region (setAt m.mem ci (s 0)) len).Perm (region s len) ∧
      (∀ j, ci ≤ j → m.mem j = s j) ∧ (0 < ci → m.mem ((ci - 1) / 2) = s ci))
    (fun r => (region (setAt r.1.mem r.2.1 (s 0)) len).Perm (region s len) ∧
      r.1.mem r.2.1 = s r.2.1 ∧ (0 < r.2.1 → r.1.mem ((r.2.1 - 1) / 2) = s r.2.1))
  · refine ⟨rfl, rfl, by omega, ?_, fun _ _ => rfl, fun h => absurd h (by decide)⟩
    simp only [Mach.init_mem, setAt_self]
    exact List.Perm.refl _
  · rintro m hole ci c ⟨_, hc, _⟩; omega
  · rintro m hole ci c ⟨hh, hc, hci, hperm, hbelow, hpar⟩ _
    show (region (setAt m.mem hole (s 0)) len).Perm (region s len) ∧
      m.mem hole = s hole ∧ (0 < hole → m.mem ((hole - 1) / 2) = s hole)
    subst hh
    exact ⟨hperm, hbelow hole (Nat.le_refl _), hpar⟩
  · rintro m hole ci c ⟨hh, hc, hci, hperm, hbelow, hpar⟩ hl
    have hleft := choose_child_left true comp m (ci + c) (c * 2) len
    have hpos := choose_child_pos true comp m (ci + c) (c * 2) len
    have hlo : ci < (choose_child true comp m (ci + c) (c * 2) len).2.1 := by
      rw [hleft]; split <;> omega
    have hlt : (choose_child true comp m (ci + c) (c * 2) len).2.1 < len := by
      rw [hleft]; split <;> omega
    have hparent : ((choose_child true comp m (ci + c) (c * 2) len).2.1 - 1) / 2 = ci := by
      rw [hleft]; split <;> omega
    subst hh
    simp only [moveUp_mem, choose_child_mem]
    refine ⟨trivial, ?_, hlt, ?_, ?_, ?_⟩
    · rw [hleft, hpos]; split <;> omega
    · exact (region_step_perm m.mem len hole _ (s 0) hci hlt (by omega)).trans hperm
    · intro j hj
      rw [setAt_other _ _ j _ (by omega)]
      exact hbelow j (by omega)
    · intro _
      rw [hparent, setAt_same]
      exact hbelow _ (by omega)

/-- C12: for every odd `len`, the call returns `(h, _)` and a memory `s'` such that `s'` with
position `h` overwritten by the original root value `s[0]` is a permutation of `s` on `[0, len)`;
moreover `s'[h]` is still the original `s[h]`, and for `h > 0` the parent of `h` holds `s[h]` as
well. -/
theorem floyd_sift_down_rearranges (comp : α → α → Bool) (s : Nat → α) (len : Nat)
    (hodd : len % 2 = 1) :
    ∃ r, floyd_sift_down comp s len = some r ∧
      (region (setAt r.1.mem r.2.1 (s 0)) len).Perm (region s len) ∧
      r.1.mem r.2.1 = s r.2.1 ∧ (0 < r.2.1 → r.1.mem ((r.2.1 - 1) / 2) = s r.2.1) :=
  floyd_sift_down_perm_aux comp s len hodd

theorem floyd_sift_down_rearranges_witness :
    5 % 2 = 1 ∧
    (floyd_sift_down natLt (ofList [1, 5, 4, 2, 3] 0) 5).map
        (fun r => (region r.1.mem 5, r.2.1)) = some ([5, 3, 4, 2, 3], 4) ∧
    ∃ r, floyd_sift_down natLt (ofList [1, 5, 4, 2, 3] 0) 5 = some r ∧
      (region (setAt r.1.mem r.2.1 (ofList [1, 5, 4, 2, 3] 0 0)) 5).Perm
        (region (ofList [1, 5, 4, 2, 3] 0) 5) ∧
      r.1.mem r.2.1 = ofList [1, 5, 4, 2, 3] 0 r.2.1 ∧
      (0 < r.2.1 → r.1.mem ((r.2.1 - 1) / 2) = ofList [1, 5, 4, 2, 3] 0 r.2.1) :=
  ⟨by decide, by decide,
    floyd_sift_down_rearranges natLt (ofList [1, 5, 4, 2, 3] 0) 5 (by decide)⟩

theorem floyd_sift_down_heap_aux (comp : α → α → Bool) (hirr : ∀ a, comp a a = false)
    (hasym : ∀ a b, comp a b = true → comp b a = false) (s : Nat → α) (len : Nat)
    (hodd : len % 2 = 1)
    (hpre : ∀ p c, 1 ≤ p → IsChild p c → c < len → comp (s p) (s c) = false) :
    ∃ r, floyd_sift_down comp s len = some r ∧
      (∀ p c, IsChild p c → c < len → comp (r.1.mem p) (r.1.mem c) = false) ∧
      (∀ j, ¬ InSubtree j r.2.1 → r.1.mem j = s j) := by
  apply floyd_sift_down_rule comp s len
    (fun m hole ci c => hole = ci ∧ c = ci + 1 ∧ ci < len ∧
      (∀ j, ¬ InSubtree j ci → m.mem j = s j) ∧
      (∀ p q, IsChild p q → q < len → (p = 0 → ci ≠ 0) → comp (m.mem p) (m.mem q) = false) ∧
      (0 < ci → m.mem ((ci - 1) / 2) = m.mem ci))
    (fun r => (∀ p c, IsChild p c → c < len → comp (r.1.mem p) (r.1.mem c) = false) ∧
      (∀ j, ¬ InSubtree j r.2.1 → r.1.mem j = s j))
  · refine ⟨rfl, rfl, by omega, fun _ _ => rfl, ?_, fun h => absurd h (by decide)⟩
    intro p q hpq hq hp
    exact hpre p q (by have := hp; omega) hpq hq
  · rintro m hole ci c ⟨_, hc, _⟩; omega
  · rintro m hole ci c ⟨hh, hc, hci, hframe, hheap, hdup⟩ hl
    show (∀ p q, IsChild p q → q < len → comp (m.mem p) (m.mem q) = false) ∧
      (∀ j, ¬ InSubtree j hole → m.mem j = s j)
    subst hh
    refine ⟨?_, hframe⟩
    intro p q hpq hq
    apply hheap p q hpq hq
    intro hp0 hh0
    simp only [IsChild] at hpq
    omega
  · rintro m hole ci c ⟨hh, hc, hci, hframe, hheap, hdup⟩ hl
    have hleft := choose_child_left true comp m (ci + c) (c * 2) len
    have hpos := choose_child_pos true comp m (ci + c) (c * 2) len
    have hmax := choose_child_true_max comp m (ci + c) (c * 2) len hirr hasym
    have hchild : IsChild ci (choose_child true comp m (ci + c) (c * 2) len).2.1 := by
      rw [hleft]; unfold IsChild; split <;> omega
    have hlt : (choose_child true comp m (ci + c) (c * 2) len).2.1 < len := by
      rw [hleft]; split <;> omega
    have hparent : ((choose_child true comp m (ci + c) (c * 2) len).2.1 - 1) / 2 = ci := by
      simp only [IsChild] at hchild; omega
    have hne : (choose_child true comp m (ci + c) (c * 2) len).2.1 ≠ ci := by
      simp only [IsChild] at hchild; omega
    subst hh
    simp only [moveUp_mem, choose_child_mem]
    refine ⟨trivial, ?_, hlt, ?_, ?_, ?_⟩
    · rw [hleft, hpos]; split <;> omega
    · intro j hj
      have hjh : j ≠ hole := by
        intro e
        apply hj
        rw [e]
        exact InSubtree.root.of_child hchild
      rw [setAt_other _ _ j _ hjh]
      exact hframe j (fun hh => hj (hh.of_child hchild))
    · intro p q hpq hq _
      by_cases hph : p = hole
      · subst hph
        have hqp : q ≠ p := by simp only [IsChild] at hpq; omega
        rw [setAt_same, setAt_other _ _ q _ hqp]
        rcases hpq with rfl | rfl
        · have h1 : 2 * p + 1 = p + c := by omega
          rw [h1]
          exact hmax.1
        · have h1 : 2 * p + 2 = p + c + 1 := by omega
          rw [h1]
          exact hmax.2
      · rw [setAt_other _ _ p _ hph]
        by_cases hqh : q = hole
        · subst hqh
          have hq0 : 0 < q := by simp only [IsChild] at hpq; omega
          have hpp : p = (q - 1) / 2 := by simp only [IsChild] at hpq; omega
          rw [setAt_same, hpp, hdup hq0]
          exact hheap q _ hchild hlt (fun h0 => by omega)
        · rw [setAt_other _ _ q _ hqh]
          exact hheap p q hpq hq (fun hp0 hh0 => hph (by omega))
    · intro _
      rw [hparent, setAt_same, setAt_other _ _ _ _ hne]

end FloydRegion

/-! ## `__floyd_sift_down` under move semantics (claim C17) -/

section FloydMove

variable {α : Type}

theorem floyd_sift_down_mv_loop_succ (gone : α → α) (comp : α → α → Bool) (len fuel : Nat)
    (m : Mach α) (hole ci c : Nat) :
    floyd_sift_down_mv_loop gone comp len (fuel + 1) m hole ci c =
      if c ≤ len / 2 then
        floyd_sift_down_mv_loop gone comp len fuel
          ((((choose_child true comp m (ci + c) (c * 2) len).1.take gone
              (choose_child true comp m (ci + c) (c * 2) len).2.1).store hole
            ((choose_child true comp m (ci + c) (c * 2) len).1.mem
              (choose_child true comp m (ci + c) (c * 2) len).2.1)).moved)
          (choose_child true comp m (ci + c) (c * 2) len).2.1
          (choose_child true comp m (ci + c) (c * 2) len).2.1
          (choose_child true comp m (ci + c) (c * 2) len).2.2
      else
        some (m, hole, c) := by
  simp only [floyd_sift_down_mv_loop]

/-- A moved-from state that keeps the value is a plain dereference. -/
theorem Mach.take_id (m : Mach α) (i : Nat) : m.take (fun a => a) i = m.deref i := by
  simp only [Mach.take, Mach.deref, setAt_self]

/-- When the moved-from cell keeps its value, the move model is the copy model. -/
theorem floyd_sift_down_mv_loop_id (comp : α → α → Bool) (len : Nat) :
    ∀ (fuel : Nat) (m : Mach α) (hole ci c : Nat),
      floyd_sift_down_mv_loop (fun a => a) comp len fuel m hole ci c
        = floyd_sift_down_loop comp len fuel m hole ci c := by
  intro fuel
  induction fuel with
  | zero => intro m hole ci c; rfl
  | succ fuel ih =>
    intro m hole ci c
    rw [floyd_sift_down_mv_loop_succ, floyd_sift_down_loop_succ, Mach.take_id, ih]
    rfl

theorem floyd_sift_down_mv_id (comp : α → α → Bool) (s : Nat → α) (len : Nat) :
    floyd_sift_down_mv (fun a => a) comp s len = floyd_sift_down comp s len :=
  floyd_sift_down_mv_loop_id comp len _ _ _ _ _

/-- The selection only looks at the two cells it compares. -/
theorem choose_child_congr (abc : Bool) (comp : α → α → Bool) (m n : Mach α)
    (left pos bound : Nat) (hl : n.mem left = m.mem left)
    (hr : n.mem (left + 1) = m.mem (left + 1)) (hc : n.cmps = m.cmps) (hv : n.moves = m.moves)
    (ha : n.acc = m.acc) :
    (choose_child abc comp n left pos bound).2 = (choose_child abc comp m left pos bound).2 ∧
    (choose_child abc comp n left pos bound).1.mem = n.mem ∧
    (choose_child abc comp n left pos bound).1.cmps
      = (choose_child abc comp m left pos bound).1.cmps ∧
    (choose_child abc comp n left pos bound).1.moves
      = (choose_child abc comp m left pos bound).1.moves ∧
    (choose_child abc comp n left pos bound).1.acc
      = (choose_child abc comp m left pos bound).1.acc := by
  refine ⟨?_, choose_child_mem _ _ _ _ _ _, ?_, ?_, ?_⟩
  · apply Prod.ext
    · show (choose_child abc comp n left pos bound).2.1 = (choose_child abc comp m left pos bound).2.1
      rw [choose_child_left, choose_child_left, hl, hr]
    · show (choose_child abc comp n left pos bound).2.2 = (choose_child abc comp m left pos bound).2.2
      rw [choose_child_pos, choose_child_pos, hl, hr]
  · rw [choose_child_cmps, choose_child_cmps, hl, hr, hc]
  · rw [choose_child_moves, choose_child_moves, hv]
  · rw [choose_child_acc, choose_child_acc, ha]

/-- Simulation of the copy model by the move model: started on states that agree everywhere
except at the hole, both loops return the same hole and child, the same logs, and memories that
agree everywhere except at the returned hole. -/
theorem floyd_sift_down_mv_loop_sim (gone : α → α) (comp : α → α → Bool) (len : Nat) :
    ∀ (fuel : Nat) (m n : Mach α) (h c : Nat) (r : Mach α × Nat × Nat), 1 ≤ c →
      (∀ j, j ≠ h → n.mem j = m.mem j) → n.cmps = m.cmps → n.moves = m.moves → n.acc = m.acc →
      floyd_sift_down_loop comp len fuel m h h c = some r →
      ∃ q, floyd_sift_down_mv_loop gone comp len fuel n h h c = some q ∧ q.2 = r.2 ∧
        (∀ j, j ≠ r.2.1 → q.1.mem j = r.1.mem j) ∧ q.1.cmps = r.1.cmps ∧
        q.1.moves = r.1.moves ∧ q.1.acc = r.1.acc := by
  intro fuel
  induction fuel with
  | zero =>
    intro m n h c r _ _ _ _ _ hr
    simp [floyd_sift_down_loop] at hr
  | succ fuel ih =>
    intro m n h c r hc1 hmem hcmps hmoves hacc hr
    rw [floyd_sift_down_loop_succ] at hr
    rw [floyd_sift_down_mv_loop_succ]
    by_cases hl : c ≤ len / 2
    · rw [if_pos hl] at hr
      rw [if_pos hl]
      obtain ⟨h2, hnmem, hccmps, hcmoves, hcacc⟩ := choose_child_congr true comp m n (h + c)
        (c * 2) len (hmem _ (by omega)) (hmem _ (by omega)) hcmps hmoves hacc
      have hmmem := choose_child_mem true comp m (h + c) (c * 2) len
      have hk : h < (choose_child true comp m (h + c) (c * 2) len).2.1 := by
        rw [choose_child_left]; split <;> omega
      have hpos : 1 ≤ (choose_child true comp m (h + c) (c * 2) len).2.2 := by
        rw [choose_child_pos]; split <;> omega
      rw [h2]
      apply ih _ _ _ _ r hpos _ _ _ _ hr
      · intro j hj
        simp only [Mach.moved_mem, Mach.store_mem, Mach.take, moveUp_mem, hnmem, hmmem,
          setAt_apply]
        by_cases hjh : j = h
        · rw [if_pos hjh, if_pos hjh]
          exact hmem _ (by omega)
        · rw [if_neg hjh, if_neg hjh, if_neg hj]
          exact hmem j hjh
      · simp only [Mach.moved_cmps, Mach.store_cmps, Mach.take, moveUp_cmps, hccmps]
      · simp only [Mach.moved_moves, Mach.store_moves, Mach.take, moveUp_moves, hcmoves]
      · simp only [Mach.moved_acc, Mach.store_acc, Mach.take, moveUp, Mach.deref_acc, hcacc]
    · rw [if_neg hl] at hr
      rw [if_neg hl]
      cases hr
      exact ⟨_, rfl, rfl, hmem, hcmps, hmoves, hacc⟩

/-- The move model and the copy model of `__floyd_sift_down` return the same hole and child and
the same logs, and their memories agree everywhere except at the returned hole. -/
theorem floyd_sift_down_mv_agrees (gone : α → α) (comp : α → α → Bool) (s : Nat → α)
    (len : Nat) :
    ∃ r q, floyd_sift_down comp s len = some r ∧ floyd_sift_down_mv gone comp s len = some q ∧
      q.2 = r.2 ∧ (∀ j, j ≠ r.2.1 → q.1.mem j = r.1.mem j) ∧ q.1.cmps = r.1.cmps ∧
      q.1.moves = r.1.moves ∧ q.1.acc = r.1.acc := by
  obtain ⟨r, hr⟩ := floyd_sift_down_returns comp s len
  obtain ⟨q, hq, hrest⟩ := floyd_sift_down_mv_loop_sim gone comp len (len + 1) (Mach.init s)
    (Mach.init s) 0 1 r (Nat.le_refl 1) (fun _ _ => rfl) rfl rfl rfl hr
  exact ⟨r, q, hr, hq, hrest⟩

end FloydMove

/-! ## The heap shape left by `__floyd_sift_down` (claim C17) -/

section FloydShape

variable {α : Type}

theorem natGt_strictWeakOrder : StrictWeakOrder natGt := by
  refine ⟨?_, ?_, ?_⟩
  · intro a; simp [natGt]
  · intro a b c; simp only [natGt, decide_eq_true_eq]; omega
  · intro a b c; simp only [natGt, decide_eq_false_iff_not]; omega

/-- C17, counterexample: elements whose moved-from state is `0`, ordered by `natGt` (a
min-heap), sequence `[5, 1, 2]`, `len = 3`. The precondition holds (no parent `p ≥ 1` has a child
in the region). The call moves `1` from position `1` into the root and returns the hole `1`,
leaving `[1, 0, 2]`: for the root and its child `1`, `comp(s'[0], s'[1]) = natGt 1 0` is true. -/
theorem floyd_sift_down_hole_out_of_order :
    StrictWeakOrder natGt ∧
    (∀ p c, 1 ≤ p → IsChild p c → c < 3 →
      natGt (ofList [5, 1, 2] 0 p) (ofList [5, 1, 2] 0 c) = false) ∧
    (floyd_sift_down_mv (fun _ => 0) natGt (ofList [5, 1, 2] 0) 3).map
        (fun r => (region r.1.mem 3, r.2.1, natGt (r.1.mem 0) (r.1.mem 1)))
      = some ([1, 0, 2], 1, true) := by
  refine ⟨natGt_strictWeakOrder, ?_, by decide⟩
  intro p c hp hpc hc
  simp only [IsChild] at hpc
  omega

/-- C17, amended: for every odd `len`, every strict weak ordering `comp` and every moved-from
state `gone`, if every parent `p ≥ 1` is in heap order with its children inside the region, then
the call returns a hole `h` and a memory `s'` in which every parent, the root included, is in
heap order with each of its children inside the region other than the hole `h`, and every
position that is not on the path from the root to `h` holds its original value. The cell of the
hole itself is moved-from; when a moved-from cell keeps its value (moves are copies), every
parent is in heap order with all its children inside the region, the hole included. -/
theorem floyd_sift_down_heap_shape (gone : α → α) (comp : α → α → Bool)
    (hswo : StrictWeakOrder comp) (s : Nat → α) (len : Nat) (hodd : len % 2 = 1)
    (hpre : ∀ p c, 1 ≤ p → IsChild p c → c < len → comp (s p) (s c) = false) :
    ∃ r, floyd_sift_down_mv gone comp s len = some r ∧
      (∀ p c, IsChild p c → c < len → c ≠ r.2.1 → comp (r.1.mem p) (r.1.mem c) = false) ∧
      (∀ j, ¬ InSubtree j r.2.1 → r.1.mem j = s j) ∧
      ((∀ a, gone a = a) →
        ∀ p c, IsChild p c → c < len → comp (r.1.mem p) (r.1.mem c) = false) := by
  obtain ⟨r, q, hr, hq, h2, hmem, _⟩ := floyd_sift_down_mv_agrees gone comp s len
  obtain ⟨r1, hr1, hheap, hframe⟩ :=
    floyd_sift_down_heap_aux comp hswo.irrefl hswo.asymm s len hodd hpre
  rw [hr] at hr1
  cases hr1
  obtain ⟨r3, hr3, _, _, hleaf, _⟩ := floyd_sift_down_odd comp s len hodd
  rw [hr] at hr3
  cases hr3
  have hq1 : q.2.1 = r.2.1 := by rw [h2]
  refine ⟨q, hq, ?_, ?_, ?_⟩
  · intro p c hpc hc hne
    rw [hq1] at hne
    have hp : p ≠ r.2.1 := by
      intro e
      simp only [IsChild] at hpc
      omega
    rw [hmem p hp, hmem c hne]
    exact hheap p c hpc hc
  · intro j hj
    rw [hq1] at hj
    have hjh : j ≠ r.2.1 := fun e => hj (e ▸ InSubtree.root)
    rw [hmem j hjh]
    exact hframe j hj
  · intro hid
    have hg : gone = fun a => a := funext hid
    rw [hg, floyd_sift_down_mv_id, hr] at hq
    cases hq
    exact hheap

theorem floyd_sift_down_heap_shape_witness :
    StrictWeakOrder natLt ∧ 5 % 2 = 1 ∧
    (∀ p c, 1 ≤ p → IsChild p c → c < 5 →
      natLt (ofList [1, 5, 4, 2, 3] 0 p) (ofList [1, 5, 4, 2, 3] 0 c) = false) ∧
    (floyd_sift_down_mv (fun _ => 0) natLt (ofList [1, 5, 4, 2, 3] 0) 5).map
        (fun r => (region r.1.mem 5, r.2.1)) = some ([5, 3, 4, 2, 0], 4) ∧
    ∃ r, floyd_sift_down_mv (fun _ => 0) natLt (ofList [1, 5, 4, 2, 3] 0) 5 = some r ∧
      (∀ p c, IsChild p c → c < 5 → c ≠ r.2.1 → natLt (r.1.mem p) (r.1.mem c) = false) ∧
      (∀ j, ¬ InSubtree j r.2.1 → r.1.mem j = ofList [1, 5, 4, 2, 3] 0 j) ∧
      ((∀ a, (fun _ => 0) a = a) →
        ∀ p c, IsChild p c → c < 5 → natLt (r.1.mem p) (r.1.mem c) = false) :=
  have hpre : ∀ p c, 1 ≤ p → IsChild p c → c < 5 →
      natLt (ofList [1, 5, 4, 2, 3] 0 p) (ofList [1, 5, 4, 2, 3] 0 c) = false := by
    intro p c hp hpc hc
    have hp1 : p = 1 := by simp only [IsChild] at hpc; omega
    subst hp1
    rcases hpc with rfl | rfl <;> decide
  ⟨natLt_strictWeakOrder, by decide, hpre, by decide,
    floyd_sift_down_heap_shape (fun _ => 0) natLt natLt_strictWeakOrder
      (ofList [1, 5, 4, 2, 3] 0) 5 (by decide) hpre⟩

end FloydShape

end SiftDown
